import Mathlib

/-!
# spectator-go: identity normalisation, line encoding and writers

A shallow embedding of the parts of `spectator/writer/writer.go`,
`spectator/meter/counter.go`, `spectator/meter/timer.go` and of the reference
code in `spectator/meter/id_test.go` that the verified properties are about.

Conventions of the embedding:

* a Go `string` is a Lean `String`, read as its sequence of characters
  (`String.data`); the Go code only inspects strings rune by rune or compares
  them with ASCII literals, so nothing depends on the byte encoding;
* a Go `map[string]string` is the list of its entries in the order a `range`
  loop visits them; a well-formed map has pairwise distinct keys;
* Go `int`, `int64` and `time.Duration` values are Lean `Int`s (no operation
  modelled here can overflow);
* a mutable receiver becomes explicit state passing: a method returns the new
  state of its receiver;
* the mutex of `MemoryWriter` is not represented: every method body runs as
  one atomic step, which is what holding the lock guarantees;
* where a property is about aliasing (the copy of a map made by a constructor,
  the snapshot of a slice), maps and slices are kept in a heap and held by
  address; reading the heap gives back the values of the definitions above.
-/

namespace Spectator

/-! ## Go standard library: `strings` and `fmt` -/

namespace strings

/-- Go `strings.HasPrefix(s, p)`: `s` begins with `p`. -/
def HasPrefix (s p : String) : Bool :=
  p.data.isPrefixOf s.data

/-- Go `strings.TrimPrefix(s, p)`: `s` without the leading `p` when `s` begins
with `p` (removed once), and `s` itself otherwise. -/
def TrimPrefix (s p : String) : String :=
  if HasPrefix s p then ⟨s.data.drop p.data.length⟩ else s

end strings

namespace writer

/-! ## `spectator/writer/writer.go` -/

/-- The `Writer` interface: `Write(line string)` and `Close() error`.
An error value is `none` for Go `nil` and `some msg` otherwise. -/
class Writer (σ : Type) where
  Write : σ → String → σ
  Close : σ → σ × Option String

/-- `type MemoryWriter struct { lines []string; mu sync.RWMutex }`. -/
structure MemoryWriter where
  lines : List String
  deriving DecidableEq, Repr

/-- `func (m *MemoryWriter) Write(line string)`: `m.lines = append(m.lines, line)`. -/
def MemoryWriter.Write (m : MemoryWriter) (line : String) : MemoryWriter :=
  { m with lines := m.lines ++ [line] }

/-- `func (m *MemoryWriter) Lines() []string`: `slices.Clone(m.lines)`; the
clone is a value of its own, here the list itself. -/
def MemoryWriter.Lines (m : MemoryWriter) : List String :=
  m.lines

/-- `func (m *MemoryWriter) Reset()`: `m.lines = []string{}`. -/
def MemoryWriter.Reset (m : MemoryWriter) : MemoryWriter :=
  { m with lines := [] }

/-- `func (m *MemoryWriter) Close() error`: `return nil`. -/
def MemoryWriter.Close (m : MemoryWriter) : MemoryWriter × Option String :=
  (m, none)

instance : Writer MemoryWriter where
  Write := MemoryWriter.Write
  Close := MemoryWriter.Close

/-- `type NoopWriter struct{}`. -/
structure NoopWriter where
  deriving DecidableEq, Repr

/-- `func (n *NoopWriter) Write(_ string) {}`. -/
def NoopWriter.Write (n : NoopWriter) (_line : String) : NoopWriter := n

/-- `func (n *NoopWriter) Close() error`: `return nil`. -/
def NoopWriter.Close (n : NoopWriter) : NoopWriter × Option String := (n, none)

instance : Writer NoopWriter where
  Write := NoopWriter.Write
  Close := NoopWriter.Close

/-- `type StdoutWriter struct{}`; the standard output stream is outside the
embedding, the struct itself has no state. -/
structure StdoutWriter where
  deriving DecidableEq, Repr

/-- `type StderrWriter struct{}`; as for `StdoutWriter`. -/
structure StderrWriter where
  deriving DecidableEq, Repr

/-- A logger, as far as the factory uses one: the messages it has been handed
through `Infof`, oldest first. -/
structure Logger where
  infos : List String
  deriving DecidableEq, Repr

/-- `logger.Infof(format, args...)` with the message already formatted. -/
def Logger.Infof (l : Logger) (msg : String) : Logger :=
  { l with infos := l.infos ++ [msg] }

/-- `func IsValidOutputLocation(output string) bool`. -/
def IsValidOutputLocation (output : String) : Bool :=
  output == "none" ||
  output == "memory" ||
  output == "stdout" ||
  output == "stderr" ||
  output == "udp" ||
  output == "unix" ||
  strings.HasPrefix output "file://" ||
  strings.HasPrefix output "udp://" ||
  strings.HasPrefix output "unix://"

/-- What a `return` statement of `NewWriterWithBuffer` hands back.  The four
writers defined in `writer.go` are returned as values with a `nil` error; the
UDP, Unix datagram and file constructors live in other files of the package,
so a `return NewXxx(args)` is kept as that call with its arguments; the
`default` branch returns a `nil` writer and an error with the given message. -/
inductive Returned where
  | NoopWriter (w : NoopWriter)
  | MemoryWriter (w : MemoryWriter)
  | StdoutWriter (w : StdoutWriter)
  | StderrWriter (w : StderrWriter)
  | NewUdpWriterWithBuffer (address : String) (logger : Logger) (bufferSize : Int)
  | NewUnixgramWriterWithBuffer (path : String) (logger : Logger) (bufferSize : Int)
  | NewFileWriter (filePath : String) (logger : Logger)
  | Errorf (msg : String)
  deriving DecidableEq, Repr

/-- The returned pair is `(nil, err)` with `err` built by `fmt.Errorf`. -/
def Returned.isErrorf : Returned → Bool
  | .Errorf _ => true
  | _ => false

/-- `func NewWriterWithBuffer(outputLocation string, logger logger.Logger,
bufferSize int) (Writer, error)`.  The first component is the logger after the
call, the second what the function returns. -/
def NewWriterWithBuffer (outputLocation : String) (logger : Logger) (bufferSize : Int) :
    Logger × Returned :=
  if outputLocation == "none" then
    let logger := logger.Infof "Initializing NoopWriter"
    (logger, .NoopWriter {})
  else if outputLocation == "memory" then
    let logger := logger.Infof "Initializing MemoryWriter"
    (logger, .MemoryWriter { lines := [] })
  else if outputLocation == "stdout" then
    let logger := logger.Infof "Initializing StdoutWriter"
    (logger, .StdoutWriter {})
  else if outputLocation == "stderr" then
    let logger := logger.Infof "Initializing StderrWriter"
    (logger, .StderrWriter {})
  else if outputLocation == "udp" then
    let outputLocation := "udp://127.0.0.1:1234"
    let logger := logger.Infof ("Initializing UdpWriter with address " ++ outputLocation)
    let address := strings.TrimPrefix outputLocation "udp://"
    (logger, .NewUdpWriterWithBuffer address logger bufferSize)
  else if outputLocation == "unix" then
    let outputLocation := "unix:///run/spectatord/spectatord.unix"
    let logger := logger.Infof ("Initializing UnixgramWriter with path " ++ outputLocation)
    let path := strings.TrimPrefix outputLocation "unix://"
    (logger, .NewUnixgramWriterWithBuffer path logger bufferSize)
  else if strings.HasPrefix outputLocation "file://" then
    let logger := logger.Infof ("Initializing FileWriter with path " ++ outputLocation)
    let filePath := strings.TrimPrefix outputLocation "file://"
    (logger, .NewFileWriter filePath logger)
  else if strings.HasPrefix outputLocation "udp://" then
    let logger := logger.Infof ("Initializing UdpWriter with address " ++ outputLocation)
    let address := strings.TrimPrefix outputLocation "udp://"
    (logger, .NewUdpWriterWithBuffer address logger bufferSize)
  else if strings.HasPrefix outputLocation "unix://" then
    let logger := logger.Infof ("Initializing UnixgramWriter with path " ++ outputLocation)
    let path := strings.TrimPrefix outputLocation "unix://"
    (logger, .NewUnixgramWriterWithBuffer path logger bufferSize)
  else
    (logger, .Errorf ("unknown output location: " ++ outputLocation))

/-- `func NewWriter(outputLocation string, logger logger.Logger) (Writer, error)`. -/
def NewWriter (outputLocation : String) (logger : Logger) : Logger × Returned :=
  NewWriterWithBuffer outputLocation logger 0

end writer

/-! ## Go standard library: string comparison and `sort.Strings` -/

/-- Go `a < b` on strings, on the character sequences: the first position where
the two differ decides, and a proper prefix is smaller.  (Go compares bytes;
on UTF-8 text that is the same order as comparing code points.) -/
def lexLess : List Char → List Char → Bool
  | _, [] => false
  | [], _ :: _ => true
  | a :: as, b :: bs =>
    if a < b then true else if b < a then false else lexLess as bs

/-- Go `a < b` for strings. -/
def stringLess (a b : String) : Bool :=
  lexLess a.data b.data

namespace sort

/-- Go `sort.Strings(x)`: `x` in increasing order.  Insertion sort; an element
is placed before the first element that is not smaller than it. -/
def Strings (x : List String) : List String :=
  x.insertionSort (fun a b => stringLess b a = false)

end sort

namespace fmt

/-- The verb `%d` of `fmt.Sprintf` applied to an integer: its plain decimal
rendering, with a leading `-` for a negative number. -/
def d (n : Int) : String :=
  if n < 0 then "-" ++ Nat.repr n.natAbs else Nat.repr n.natAbs

/-- The verb `%03d` of `fmt.Sprintf` applied to a non-negative integer: its
decimal rendering, padded with zeros on the left to three characters. -/
def d03 (i : Nat) : String :=
  String.mk (List.replicate (3 - (Nat.repr i).length) '0') ++ Nat.repr i

end fmt

/-! ## Go `float64`, `time.Duration` and the verb `%f`

A finite `float64` is represented by the exact fraction it denotes.  Every
arithmetic operation computes the exact result and rounds it to the nearest
binary64 value, ties to the even significand, as IEEE 754 prescribes. -/

/-- The number of binary digits of `n`, with `fuel` steps available. -/
def bitLengthAux : Nat → Nat → Nat
  | 0, _ => 0
  | fuel + 1, n => if n = 0 then 0 else bitLengthAux fuel (n / 2) + 1

/-- The number of binary digits of `n`: `2 ^ (bitLength n - 1) ≤ n < 2 ^ bitLength n`
for `n > 0`. -/
def bitLength (n : Nat) : Nat :=
  bitLengthAux n n

/-- The integer nearest to `n / d`, a tie going to the even one. -/
def roundHalfEven (n d : Nat) : Nat :=
  let q := n / d
  let r := n % d
  if 2 * r < d then q else if d < 2 * r then q + 1 else if q % 2 = 0 then q else q + 1

/-- A finite `float64`, as the fraction `num / den` it denotes. -/
structure Float64 where
  num : Int
  den : Nat
  deriving DecidableEq, Repr

/-- The rational number a `float64` denotes. -/
def Float64.val (x : Float64) : ℚ :=
  (x.num : ℚ) / (x.den : ℚ)

/-- The exponent `e` with `2 ^ e ≤ n / den < 2 ^ (e + 1)`, for positive `n` and
`den`: the difference `c` of the bit lengths, or `c - 1`. -/
def binaryExponent (n den : Nat) : Int :=
  let c : Int := (bitLength n : Int) - (bitLength den : Int)
  if (0 ≤ c ∧ den * 2 ^ c.toNat ≤ n) ∨ (c < 0 ∧ den ≤ n * 2 ^ (-c).toNat) then c else c - 1

/-- The binary64 value nearest to `num / den` (ties to even).  With
`2 ^ e ≤ |num / den| < 2 ^ (e + 1)`, and `e` at least `-1022`, neighbouring
binary64 values are `2 ^ (e - 52)` apart.  Magnitudes of `2 ^ 1024` and above,
which overflow, do not occur here. -/
def Float64.round (num : Int) (den : Nat) : Float64 :=
  let n := num.natAbs
  if n = 0 ∨ den = 0 then ⟨0, 1⟩
  else
    let p : Int := max (binaryExponent n den) (-1022) - 52
    if 0 ≤ p then ⟨num.sign * (roundHalfEven n (den * 2 ^ p.toNat) * 2 ^ p.toNat : Nat), 1⟩
    else ⟨num.sign * (roundHalfEven (n * 2 ^ (-p).toNat) den : Nat), 2 ^ (-p).toNat⟩

/-- The conversion `float64(n)` of an integer. -/
def Float64.ofInt (n : Int) : Float64 :=
  Float64.round n 1

/-- The `float64` sum `a + b`. -/
def Float64.add (a b : Float64) : Float64 :=
  Float64.round (a.num * b.den + b.num * a.den) (a.den * b.den)

/-- The `float64` quotient `a / b`, for `b` other than zero. -/
def Float64.div (a b : Float64) : Float64 :=
  Float64.round (a.num * b.den * b.num.sign) (a.den * b.num.natAbs)

namespace time

/-- `const Second Duration = 1000000000` (a `Duration` counts nanoseconds). -/
def Second : Int := 1000000000

/-- `func (d Duration) Seconds() float64` of the Go standard library:
`sec := d / Second; nsec := d % Second; return float64(sec) + float64(nsec)/1e9`. -/
def Duration.Seconds (d : Int) : Float64 :=
  let sec := d.tdiv Second
  let nsec := d.tmod Second
  Float64.add (Float64.ofInt sec) (Float64.div (Float64.ofInt nsec) (Float64.ofInt 1000000000))

end time

namespace fmt

/-- The six digits after the decimal point of `n / 10 ^ 6`. -/
def fractionDigits (n : Nat) : List Char :=
  [5, 4, 3, 2, 1, 0].map fun i => Nat.digitChar (n / 10 ^ i % 10)

/-- The magnitude of `x` in millionths, rounded to the nearest integer, a tie
going to the even one. -/
def millionths (x : Float64) : Nat :=
  roundHalfEven (x.num.natAbs * 10 ^ 6) x.den

/-- The verb `%f` of `fmt.Sprintf` applied to a `float64`: the value rounded to
six decimal places (to nearest, ties to even, on the exact value), written as
the integer part, a point and six digits, with a leading `-` when negative. -/
def f (x : Float64) : String :=
  let n := millionths x
  let body := Nat.repr (n / 10 ^ 6) ++ "." ++ String.mk (fractionDigits n)
  if x.num < 0 then "-" ++ body else body

/-- The value of a timer line as the prose of the spec reads it: `d`
nanoseconds converted to seconds exactly, rounded to the nearest millionth (a
tie going to the even one) and written as the whole part, a point and six
digits. -/
def secondsExact (d : Nat) : String :=
  let n := roundHalfEven d 1000
  Nat.repr (n / 10 ^ 6) ++ "." ++ String.mk (fractionDigits n)

end fmt

namespace meter

/-! ## `spectator/meter`: identifiers -/

/-- A Go `map[string]string`: its entries in the order a `range` loop visits
them. -/
abbrev Tags := List (String × String)

/-- Well-formed maps have pairwise distinct keys. -/
def Tags.WellFormed (tags : Tags) : Prop :=
  (tags.map Prod.fst).Nodup

instance (tags : Tags) : Decidable tags.WellFormed :=
  inferInstanceAs (Decidable (tags.map Prod.fst).Nodup)

/-- Go `tags[k]`: the value stored under `k`, the empty string when absent. -/
def Tags.index (tags : Tags) (k : String) : String :=
  (tags.lookup k).getD ""

/-- Modelled from the spec: `isValidCharacter` is defined in `id.go`, which is
not among the sources.  The allowed set is the one of the spec, ASCII letters,
digits, `.`, `-`, `_` and `~`, together with `^`: `TestToSpectatorId_InvalidTags`
in `id_test.go` expects the `^` of its metric name to be kept. -/
def isValidCharacter (r : Char) : Bool :=
  ('a' ≤ r && r ≤ 'z') || ('A' ≤ r && r ≤ 'Z') || ('0' ≤ r && r ≤ '9') ||
  r == '-' || r == '.' || r == '_' || r == '~' || r == '^'

/-- The allowed set exactly as the prose of the spec lists it: ASCII letters,
digits, `.`, `-`, `_`, `~`. -/
def inSpecAllowedSet (r : Char) : Bool :=
  ('a' ≤ r && r ≤ 'z') || ('A' ≤ r && r ≤ 'Z') || ('0' ≤ r && r ≤ '9') ||
  r == '.' || r == '-' || r == '_' || r == '~'

/-- The closure `replaceInvalidCharacters` of `BenchmarkToSpectatorId` in
`id_test.go`: a `strings.Builder` receives, rune by rune, `_` for an invalid
rune and the rune itself otherwise. -/
def replaceInvalidCharacters (input : String) : String :=
  input.data.foldl
    (fun result r => if !isValidCharacter r then result.push '_' else result.push r) ""

/-- The closure `originalToSpectatorId` of `BenchmarkToSpectatorId` in
`id_test.go`: `result += fmt.Sprintf(",%s=%s", k, v)` for every entry. -/
def originalToSpectatorId (name : String) (tags : Tags) : String :=
  tags.foldl
    (fun result kv =>
      let k := replaceInvalidCharacters kv.1
      let v := replaceInvalidCharacters kv.2
      result ++ ("," ++ k ++ "=" ++ v))
    (replaceInvalidCharacters name)

/-- One string with every character outside the allowed set replaced by `_`. -/
def sanitized (s : String) : String :=
  ⟨s.data.map fun r => if isValidCharacter r then r else '_'⟩

/-- Modelled from the spec: `toSpectatorId` is defined in `id.go`, which is not
among the sources.  The wire identifier is the sanitised name followed, for
every tag, by `,sanitised_key=sanitised_value`; with no tags it is the
sanitised name. -/
def toSpectatorId (name : String) (tags : Tags) : String :=
  sanitized name ++
    String.join (tags.map fun kv => "," ++ sanitized kv.1 ++ "=" ++ sanitized kv.2)

/-- The struct `Id` (fields as used by `id_test.go` and `counter.go`): the
name, the tags, the cached internal key (empty while not computed) and the
wire identifier. -/
structure Id where
  name : String
  tags : Tags
  key : String
  spectatordId : String
  deriving DecidableEq, Repr

/-- Modelled from the spec: `NewId` is defined in `id.go`, which is not among
the sources.  The identity owns a copy of the tags, its internal key is not
yet computed and its wire identifier is computed from the name and the tags. -/
def NewId (name : String) (tags : Tags) : Id :=
  { name := name, tags := tags, key := "", spectatordId := toSpectatorId name tags }

/-- Modelled from the spec: `MapKey` is defined in `id.go`, which is not among
the sources.  A cached key is returned as it is; otherwise the key is the
name, then for each tag key in ascending order `|key|value`, and it is stored
in the identity.  The result is the key and the identity after the call. -/
def Id.MapKey (id : Id) : String × Id :=
  if id.key.length > 0 then (id.key, id)
  else
    let keys := sort.Strings (id.tags.map Prod.fst)
    let key := keys.foldl (fun buf k => buf ++ "|" ++ k ++ "|" ++ id.tags.index k) id.name
    (key, { id with key := key })

/-- The entries of a map, by ascending key. -/
def Tags.sortedEntries (tags : Tags) : Tags :=
  (sort.Strings (tags.map Prod.fst)).map fun k => (k, tags.index k)

/-- The map built by `TestId_mapKeySortsTags`: keys `"000"` to `"099"`, each
with value `"v"`; listed here from the last key to the first. -/
def testTags100 : Tags :=
  (List.range 100).reverse.map fun i => (fmt.d03 i, "v")

/-- The key `TestId_mapKeySortsTags` expects: `"foo"` followed by `|000|v`,
`|001|v`, up to `|099|v`. -/
def testKey100 : String :=
  (List.range 100).foldl (fun buf i => buf ++ ("|" ++ fmt.d03 i ++ "|v")) "foo"

/-- The string `t` is `s` with every character outside `allowed` replaced by
`_` and every character of `allowed` unchanged. -/
def Replaces (allowed : Char → Bool) (s t : String) : Prop :=
  List.Forall₂ (fun a b => b = if allowed a then a else '_') s.data t.data

/-- The string `out` is a wire identifier of `name` and `tags` built with the
allowed set `allowed`: the cleaned name followed, tag by tag, by `,`, the
cleaned key, `=` and the cleaned value. -/
def WireIdentifierOf (allowed : Char → Bool) (name : String) (tags : Tags) (out : String) :
    Prop :=
  ∃ (n : String) (kvs : Tags),
    Replaces allowed name n ∧
    List.Forall₂ (fun kv c => Replaces allowed kv.1 c.1 ∧ Replaces allowed kv.2 c.2) tags kvs ∧
    out = n ++ String.join (kvs.map fun c => "," ++ c.1 ++ "=" ++ c.2)

/-- The metric name of `TestToSpectatorId_InvalidTags`. -/
def testInvalidName : String := "test`!@#$%^&*()-=~_+[]{}\\|;:'\",<.>/?foo"

/-- The tags of `TestToSpectatorId_InvalidTags`. -/
def testInvalidTags : Tags := [("tag1,:=", "value1,:="), ("tag2,;=", "value2,;=")]

/-- `func (id *Id) Name() string`. -/
def Id.Name (id : Id) : String := id.name

/-- `func (id *Id) Tags() map[string]string`. -/
def Id.Tags (id : Id) : Tags := id.tags

/-! ## `spectator/meter/counter.go` -/

/-- `type Counter struct { id *Id; writer writer.Writer; meterTypeSymbol string }`,
for a writer whose state has type `σ`. -/
structure Counter (σ : Type) where
  id : Id
  writer : σ
  meterTypeSymbol : String

/-- `func NewCounter(id *Id, writer writer.Writer) *Counter`. -/
def NewCounter {σ : Type} (id : Id) (writer : σ) : Counter σ :=
  { id := id, writer := writer, meterTypeSymbol := "c" }

/-- `func (c *Counter) MeterId() *Id`. -/
def Counter.MeterId {σ : Type} (c : Counter σ) : Id := c.id

/-- `func (c *Counter) Increment()`:
`line = fmt.Sprintf("%s:%s:%d", c.meterTypeSymbol, c.id.spectatordId, 1)`. -/
def Counter.Increment {σ : Type} [writer.Writer σ] (c : Counter σ) : Counter σ :=
  let line := c.meterTypeSymbol ++ ":" ++ c.id.spectatordId ++ ":" ++ fmt.d 1
  { c with writer := writer.Writer.Write c.writer line }

/-- `func (c *Counter) Add(delta int64)`. -/
def Counter.Add {σ : Type} [writer.Writer σ] (c : Counter σ) (delta : Int) : Counter σ :=
  if delta > 0 then
    let line := c.meterTypeSymbol ++ ":" ++ c.id.spectatordId ++ ":" ++ fmt.d delta
    { c with writer := writer.Writer.Write c.writer line }
  else c

/-! ## `spectator/meter/timer.go` -/

/-- `type Timer struct { id *Id; writer writer.Writer; meterTypeSymbol string }`. -/
structure Timer (σ : Type) where
  id : Id
  writer : σ
  meterTypeSymbol : String

/-- `func NewTimer(id *Id, writer writer.Writer) *Timer`. -/
def NewTimer {σ : Type} (id : Id) (writer : σ) : Timer σ :=
  { id := id, writer := writer, meterTypeSymbol := "t" }

/-- `func (t *Timer) MeterId() *Id`. -/
def Timer.MeterId {σ : Type} (t : Timer σ) : Id := t.id

/-- `func (t *Timer) Record(amount time.Duration)`:
`line = fmt.Sprintf("%s:%s:%f", t.meterTypeSymbol, t.id.spectatordId, amount.Seconds())`. -/
def Timer.Record {σ : Type} [writer.Writer σ] (t : Timer σ) (amount : Int) : Timer σ :=
  if amount ≥ 0 then
    let line :=
      t.meterTypeSymbol ++ ":" ++ t.id.spectatordId ++ ":" ++ fmt.f (time.Duration.Seconds amount)
    { t with writer := writer.Writer.Write t.writer line }
  else t

end meter

/-! ## Splitting a string at a separator -/

/-- Go `strings.Split(s, sep)` for a one-character separator, on character
sequences: the pieces between the occurrences of `sep`. -/
def splitAt (sep : Char) : List Char → List (List Char)
  | [] => [[]]
  | c :: cs =>
    if c = sep then [] :: splitAt sep cs
    else
      match splitAt sep cs with
      | [] => [[c]]
      | piece :: pieces => (c :: piece) :: pieces

/-! ## Maps as references

A Go map value is a reference.  To speak about aliasing, the contents of all
maps allocated so far are kept in a heap, and a map value is an index into
it. -/

namespace meter

/-- Go `tags[k] = v` on the contents of a map: the value under `k` is replaced
when `k` is present, and the entry is added otherwise. -/
def Tags.assign (tags : Tags) (k v : String) : Tags :=
  if tags.any (fun e => e.1 == k) then tags.map (fun e => if e.1 == k then (e.1, v) else e)
  else tags ++ [(k, v)]

/-- Go `delete(tags, k)` on the contents of a map. -/
def Tags.delete (tags : Tags) (k : String) : Tags :=
  tags.filter (fun e => e.1 != k)

/-- Go `for k, v := range src { dst[k] = v }` on the contents of two maps. -/
def Tags.copyInto (dst src : Tags) : Tags :=
  src.foldl (fun m kv => m.assign kv.1 kv.2) dst

/-- Modelled from the spec: `WithTags` is defined in `id.go`, which is not among
the sources.  The result is a new identity with the receiver's name, whose tags
are the receiver's tags with every entry of `extra` assigned on top. -/
def Id.WithTags (id : Id) (extra : meter.Tags) : Id :=
  NewId id.name (Tags.copyInto (Tags.copyInto [] id.tags) extra)

/-- A change a caller can make to a map it holds: `m[k] = v` or `delete(m, k)`. -/
inductive MapUpdate where
  | assign (k v : String)
  | delete (k : String)
  deriving DecidableEq, Repr

/-- The contents of a map after one update. -/
def Tags.update (tags : Tags) : MapUpdate → Tags
  | .assign k v => tags.assign k v
  | .delete k => tags.delete k

/-- The contents of every map allocated so far, by address. -/
structure MapHeap where
  maps : List Tags
  deriving DecidableEq, Repr

/-- The contents of the map at address `r`. -/
def MapHeap.load (h : MapHeap) (r : Nat) : Tags :=
  h.maps.getD r []

/-- Go `make(map[string]string)`: a new empty map at a fresh address. -/
def MapHeap.make (h : MapHeap) : MapHeap × Nat :=
  ({ maps := h.maps ++ [[]] }, h.maps.length)

/-- One update of the map at address `r`. -/
def MapHeap.update (h : MapHeap) (r : Nat) (u : MapUpdate) : MapHeap :=
  { maps := h.maps.set r ((h.load r).update u) }

/-- Go `for k, v := range src { dst[k] = v }` on two map references. -/
def MapHeap.copyInto (h : MapHeap) (dst src : Nat) : MapHeap :=
  (h.load src).foldl (fun h kv => h.update dst (.assign kv.1 kv.2)) h

namespace heap

/-- The struct `Id` as it lies in memory: the field `tags` is a map reference. -/
structure Id where
  name : String
  tags : Nat
  key : String
  spectatordId : String
  deriving DecidableEq, Repr

/-- The identity an `Id` in memory stands for, its map read from the heap. -/
def Id.value (h : MapHeap) (id : heap.Id) : meter.Id :=
  { name := id.name, tags := h.load id.tags, key := id.key, spectatordId := id.spectatordId }

/-- Modelled from the spec: `NewId` is defined in `id.go`, which is not among
the sources.  The tags passed to the constructor are copied: a new map is
made and receives every entry of the caller's map; the wire identifier is
computed from the name and the tags. -/
def NewId (h : MapHeap) (name : String) (tags : Nat) : MapHeap × heap.Id :=
  let made := h.make
  let h2 := made.1.copyInto made.2 tags
  (h2, { name := name, tags := made.2, key := "",
         spectatordId := toSpectatorId name (h.load tags) })

/-- Modelled from the spec: `WithTags` is defined in `id.go`, which is not among
the sources.  A new map receives the receiver's tags and then the entries of
`extra`, which override; the result is a new identity with the receiver's name
and these tags.  The receiver is not written to. -/
def Id.WithTags (h : MapHeap) (id : heap.Id) (extra : Nat) : MapHeap × heap.Id :=
  let made := h.make
  let h2 := made.1.copyInto made.2 id.tags
  let h3 := h2.copyInto made.2 extra
  heap.NewId h3 id.name made.2

end heap

end meter

namespace meter

/-- The heap of `TestId_WithTags`: at address 0 the tags of the receiver, at
address 1 the map passed to `WithTags`. -/
def testWithTagsHeap : MapHeap :=
  { maps := [[("statistic", "baz"), ("a", "b")], [("statistic", "foo"), ("k", "v")]] }

/-- The receiver of `TestId_WithTags`, its tags at address 0. -/
def testWithTagsId : heap.Id :=
  { name := "c", tags := 0, key := "",
    spectatordId := toSpectatorId "c" [("statistic", "baz"), ("a", "b")] }

end meter

/-! ## Slices as references

A Go slice is a header, the address of a backing array with a length and a
capacity.  To speak about snapshots, the backing arrays allocated so far are
kept in a heap. -/

/-- A Go slice header: the address of the backing array, the length and the
capacity. -/
structure Slice where
  array : Nat
  len : Nat
  cap : Nat
  deriving DecidableEq, Repr

/-- The backing arrays allocated so far, by address. -/
structure ArrayHeap where
  arrays : List (List String)
  deriving DecidableEq, Repr

/-- The backing array at address `a`. -/
def ArrayHeap.load (h : ArrayHeap) (a : Nat) : List String :=
  h.arrays.getD a []

/-- The elements of a slice: the first `len` cells of its backing array. -/
def Slice.elems (h : ArrayHeap) (s : Slice) : List String :=
  (h.load s.array).take s.len

/-- Go `append(s, x)`: with spare capacity the next cell of the backing array
is written in place; otherwise the elements move to a new, larger array (how
much larger is the choice of the runtime, here twice the capacity and one). -/
def ArrayHeap.append (h : ArrayHeap) (s : Slice) (x : String) : ArrayHeap × Slice :=
  if s.len < s.cap then
    ({ arrays := h.arrays.set s.array ((h.load s.array).set s.len x) },
      { s with len := s.len + 1 })
  else
    ({ arrays := h.arrays ++
        [s.elems h ++ x :: List.replicate (2 * s.cap + 1 - (s.len + 1)) ""] },
      { array := h.arrays.length, len := s.len + 1, cap := 2 * s.cap + 1 })

namespace slices

/-- Go `slices.Clone(s)`: the elements of `s` in a backing array of their own. -/
def Clone (h : ArrayHeap) (s : Slice) : ArrayHeap × Slice :=
  ({ arrays := h.arrays ++ [s.elems h] }, { array := h.arrays.length, len := s.len, cap := s.len })

end slices

namespace writer

namespace heap

/-- The struct `MemoryWriter` as it lies in memory: the field `lines` is a
slice header (the mutex is not represented). -/
structure MemoryWriter where
  lines : Slice
  deriving DecidableEq, Repr

/-- `func (m *MemoryWriter) Write(line string)`: `m.lines = append(m.lines, line)`. -/
def MemoryWriter.Write (h : ArrayHeap) (m : heap.MemoryWriter) (line : String) :
    ArrayHeap × heap.MemoryWriter :=
  ((h.append m.lines line).1, { lines := (h.append m.lines line).2 })

/-- `func (m *MemoryWriter) Lines() []string`: `return slices.Clone(m.lines)`;
the heap after the call and the slice returned. -/
def MemoryWriter.Lines (h : ArrayHeap) (m : heap.MemoryWriter) : ArrayHeap × Slice :=
  slices.Clone h m.lines

/-- `func (m *MemoryWriter) Reset()`: `m.lines = []string{}`, an empty slice of
capacity zero. -/
def MemoryWriter.Reset (h : ArrayHeap) (_m : heap.MemoryWriter) :
    ArrayHeap × heap.MemoryWriter :=
  (h, { lines := { array := 0, len := 0, cap := 0 } })

/-- `func (m *MemoryWriter) Close() error`: `return nil`; the heap and the
writer after the call and the error returned. -/
def MemoryWriter.Close (h : ArrayHeap) (m : heap.MemoryWriter) :
    ArrayHeap × heap.MemoryWriter × Option String :=
  (h, m, none)

/-- The writer a `MemoryWriter` in memory stands for, its lines read from the
heap. -/
def MemoryWriter.value (h : ArrayHeap) (m : heap.MemoryWriter) : writer.MemoryWriter :=
  { lines := m.lines.elems h }

/-- A well-formed writer in memory: the length of `lines` is at most its
capacity, and with a capacity other than zero the backing array is allocated
and holds as many cells as the capacity. -/
def MemoryWriter.Valid (h : ArrayHeap) (m : heap.MemoryWriter) : Prop :=
  m.lines.len ≤ m.lines.cap ∧
  (m.lines.cap = 0 ∨
    (m.lines.array < h.arrays.length ∧ (h.load m.lines.array).length = m.lines.cap))

/-- A call that changes a `MemoryWriter`: `Write(line)` or `Reset()`. -/
inductive Change where
  | Write (line : String)
  | Reset
  deriving DecidableEq, Repr

/-- The heap and the writer after one changing call. -/
def MemoryWriter.apply (s : ArrayHeap × heap.MemoryWriter) : Change →
    ArrayHeap × heap.MemoryWriter
  | .Write line => heap.MemoryWriter.Write s.1 s.2 line
  | .Reset => heap.MemoryWriter.Reset s.1 s.2

/-- The same call on the writer as a value. -/
def Change.onValue (m : writer.MemoryWriter) : Change → writer.MemoryWriter
  | .Write line => m.Write line
  | .Reset => m.Reset

end heap

end writer

namespace writer

instance (h : ArrayHeap) (m : heap.MemoryWriter) : Decidable (heap.MemoryWriter.Valid h m) :=
  inferInstanceAs (Decidable (m.lines.len ≤ m.lines.cap ∧
    (m.lines.cap = 0 ∨
      (m.lines.array < h.arrays.length ∧ (h.load m.lines.array).length = m.lines.cap))))

end writer
/-! ## The order on strings -/

theorem lexLess_irrefl (a : List Char) : lexLess a a = false := by
  induction a with
  | nil => rfl
  | cons x xs ih => simp [lexLess, ih]

theorem lexLess_asymm : ∀ (a b : List Char), lexLess a b = true → lexLess b a = false
  | _, [], h => by simp [lexLess] at h
  | [], _ :: _, _ => by simp [lexLess]
  | x :: xs, y :: ys, h => by
    simp only [lexLess] at h ⊢
    by_cases hxy : x < y
    · have hyx : ¬ y < x := lt_asymm hxy
      simp [hyx, hxy]
    · by_cases hyx : y < x
      · simp [hxy, hyx] at h
      · simp only [hxy, hyx, if_false] at h ⊢
        exact lexLess_asymm xs ys h

theorem lexLess_trans : ∀ (a b c : List Char),
    lexLess a b = true → lexLess b c = true → lexLess a c = true
  | _, [], _, h, _ => by simp [lexLess] at h
  | _, _ :: _, [], _, h => by simp [lexLess] at h
  | [], _ :: _, _ :: _, _, _ => by simp [lexLess]
  | x :: xs, y :: ys, z :: zs, h1, h2 => by
    simp only [lexLess] at h1 h2 ⊢
    by_cases hxy : x < y
    · by_cases hyz : y < z
      · simp [lt_trans hxy hyz]
      · by_cases hzy : z < y
        · simp [hyz, hzy] at h2
        · have : y = z := le_antisymm (not_lt.1 hzy) (not_lt.1 hyz)
          subst this
          simp [hxy]
    · by_cases hyx : y < x
      · simp [hxy, hyx] at h1
      · have hxe : x = y := le_antisymm (not_lt.1 hyx) (not_lt.1 hxy)
        subst hxe
        simp only [hxy, if_false] at h1
        by_cases hxz : x < z
        · simp [hxz]
        · by_cases hzx : z < x
          · simp [hxz, hzx] at h2
          · simp only [hxz, hzx, if_false] at h2 ⊢
            exact lexLess_trans xs ys zs h1 h2

theorem lexLess_connex : ∀ (a b : List Char),
    lexLess a b = false → lexLess b a = false → a = b
  | [], [], _, _ => rfl
  | [], _ :: _, h, _ => by simp [lexLess] at h
  | _ :: _, [], _, h => by simp [lexLess] at h
  | x :: xs, y :: ys, h1, h2 => by
    simp only [lexLess] at h1 h2
    by_cases hxy : x < y
    · simp [hxy] at h1
    · by_cases hyx : y < x
      · simp [hyx] at h2
      · have hxe : x = y := le_antisymm (not_lt.1 hyx) (not_lt.1 hxy)
        subst hxe
        simp only [hxy, if_false] at h1 h2
        rw [lexLess_connex xs ys h1 h2]

theorem stringLess_connex (a b : String)
    (h1 : stringLess a b = false) (h2 : stringLess b a = false) : a = b :=
  String.ext (lexLess_connex _ _ h1 h2)

theorem stringLe_isTotal : IsTotal String (fun a b => stringLess b a = false) :=
  ⟨fun a b => by
    by_cases h : stringLess b a = true
    · exact Or.inr (lexLess_asymm _ _ h)
    · exact Or.inl (by simpa using h)⟩

theorem stringLe_isTrans : IsTrans String (fun a b => stringLess b a = false) :=
  ⟨fun a b c hab hbc => by
    by_contra hca
    have hca : stringLess c a = true := by simpa using hca
    by_cases hlt : stringLess b c = true
    · have hba : stringLess b a = true := lexLess_trans _ _ _ hlt hca
      rw [hba] at hab
      exact Bool.noConfusion hab
    · have hlt : stringLess b c = false := by simpa using hlt
      have hbc2 : b = c := stringLess_connex b c hlt hbc
      subst hbc2
      rw [hca] at hab
      exact Bool.noConfusion hab⟩

theorem stringLe_isAntisymm : IsAntisymm String (fun a b => stringLess b a = false) :=
  ⟨fun a b hab hba => stringLess_connex a b hba hab⟩

theorem sort.Strings_perm (x : List String) : (sort.Strings x).Perm x :=
  List.perm_insertionSort _ x

theorem sort.Strings_sorted (x : List String) :
    (sort.Strings x).Sorted (fun a b => stringLess b a = false) :=
  haveI := stringLe_isTotal
  haveI := stringLe_isTrans
  List.sorted_insertionSort _ x

theorem sort.Strings_eq_of_perm {x y : List String} (h : x.Perm y) :
    sort.Strings x = sort.Strings y :=
  haveI := stringLe_isAntisymm
  List.eq_of_perm_of_sorted
    (((sort.Strings_perm x).trans h).trans (sort.Strings_perm y).symm)
    (sort.Strings_sorted x) (sort.Strings_sorted y)

theorem sort.Strings_strict {x : List String} (h : x.Nodup) :
    (sort.Strings x).Pairwise (fun a b => stringLess a b = true) := by
  have hn : (sort.Strings x).Nodup := (sort.Strings_perm x).nodup_iff.2 h
  have hs := sort.Strings_sorted x
  refine (List.Pairwise.and hs hn).imp ?_
  rintro a b ⟨hle, hne⟩
  by_contra hlt
  exact hne (stringLess_connex a b (by simpa using hlt) hle)

/-! ## Facts about the string helpers -/

theorem strings.HasPrefix_iff (s p : String) :
    strings.HasPrefix s p = true ↔ ∃ rest : String, s = p ++ rest := by
  unfold strings.HasPrefix
  rw [List.isPrefixOf_iff_prefix]
  constructor
  · rintro ⟨t, ht⟩
    exact ⟨⟨t⟩, String.ext (by simp [ht])⟩
  · rintro ⟨rest, rfl⟩
    exact ⟨rest.data, by simp⟩

theorem strings.TrimPrefix_append (p rest : String) :
    strings.TrimPrefix (p ++ rest) p = rest := by
  have h : strings.HasPrefix (p ++ rest) p = true := (strings.HasPrefix_iff _ _).2 ⟨rest, rfl⟩
  unfold strings.TrimPrefix
  rw [if_pos h]
  exact String.ext (by simp)

namespace writer

/-- C1: the validity predicate accepts a descriptor exactly when the factory
does not end in its `default` branch, the one returning the
"unknown output location" error, and rejects it exactly when the factory
returns that error; this holds for every descriptor, logger and buffer size. -/
theorem IsValidOutputLocation_iff_factory_accepts (s : String) (logger : Logger) (n : Int) :
    (IsValidOutputLocation s = true ↔ (NewWriterWithBuffer s logger n).2.isErrorf = false) ∧
    (IsValidOutputLocation s = false ↔
      NewWriterWithBuffer s logger n =
        (logger, Returned.Errorf ("unknown output location: " ++ s))) := by
  have h1 : IsValidOutputLocation s = true ↔
      (NewWriterWithBuffer s logger n).2.isErrorf = false := by
    unfold IsValidOutputLocation NewWriterWithBuffer
    split_ifs <;> simp_all [Returned.isErrorf]
  refine ⟨h1, ?_, ?_⟩
  · intro h
    simp only [IsValidOutputLocation, Bool.or_eq_false_iff] at h
    obtain ⟨⟨⟨⟨⟨⟨⟨⟨a1, a2⟩, a3⟩, a4⟩, a5⟩, a6⟩, a7⟩, a8⟩, a9⟩ := h
    unfold NewWriterWithBuffer
    simp [a1, a2, a3, a4, a5, a6, a7, a8, a9]
  · intro h
    have he : (NewWriterWithBuffer s logger n).2.isErrorf = true := by
      rw [h]
      rfl
    cases hv : IsValidOutputLocation s
    · rfl
    · rw [h1.1 hv] at he
      exact Bool.noConfusion he

/-- C6: a descriptor that is none of the six literals and does not begin with
`file://`, `udp://` or `unix://` makes the factory return no writer and the
error "unknown output location: " followed by the descriptor, whatever the
buffer size; the logger is left as it was. -/
theorem NewWriterWithBuffer_unknown (s : String) (logger : Logger) (n : Int)
    (hlit : s ∉ ["none", "memory", "stdout", "stderr", "udp", "unix"])
    (hpre : ∀ p ∈ ["file://", "udp://", "unix://"], ¬ ∃ rest : String, s = p ++ rest) :
    NewWriterWithBuffer s logger n = (logger, Returned.Errorf ("unknown output location: " ++ s)) := by
  have h1 : strings.HasPrefix s "file://" = false := by
    rw [Bool.eq_false_iff]
    intro h
    exact hpre "file://" (by simp) ((strings.HasPrefix_iff _ _).1 h)
  have h2 : strings.HasPrefix s "udp://" = false := by
    rw [Bool.eq_false_iff]
    intro h
    exact hpre "udp://" (by simp) ((strings.HasPrefix_iff _ _).1 h)
  have h3 : strings.HasPrefix s "unix://" = false := by
    rw [Bool.eq_false_iff]
    intro h
    exact hpre "unix://" (by simp) ((strings.HasPrefix_iff _ _).1 h)
  simp only [List.mem_cons, List.mem_singleton, List.not_mem_nil, or_false, not_or] at hlit
  obtain ⟨a1, a2, a3, a4, a5, a6⟩ := hlit
  unfold NewWriterWithBuffer
  simp [a1, a2, a3, a4, a5, a6, h1, h2, h3]

theorem NewWriterWithBuffer_unknown_witness :
    "bogus" ∉ ["none", "memory", "stdout", "stderr", "udp", "unix"] ∧
    (∀ p ∈ ["file://", "udp://", "unix://"], ¬ ∃ rest : String, "bogus" = p ++ rest) ∧
    NewWriterWithBuffer "bogus" { infos := [] } 8 =
      ({ infos := [] }, Returned.Errorf "unknown output location: bogus") :=
  have hpre : ∀ p ∈ ["file://", "udp://", "unix://"], ¬ ∃ rest : String, "bogus" = p ++ rest := by
    intro p hp
    rw [← strings.HasPrefix_iff]
    simp only [List.mem_cons, List.mem_singleton, List.not_mem_nil, or_false] at hp
    rcases hp with rfl | rfl | rfl <;> decide
  ⟨by decide, hpre, NewWriterWithBuffer_unknown "bogus" { infos := [] } 8 (by decide) hpre⟩

end writer

/-! ## String building -/

theorem foldl_append_eq_join (l : List String) (init : String) :
    l.foldl (fun r s => r ++ s) init = init ++ String.join l := by
  induction l generalizing init with
  | nil => simp [String.join]
  | cons x xs ih =>
    simp only [List.foldl_cons, String.join]
    rw [ih, ih ("" ++ x)]
    simp [String.append_assoc]

theorem String_join_cons (x : String) (xs : List String) :
    String.join (x :: xs) = x ++ String.join xs := by
  simp only [String.join, List.foldl_cons]
  rw [foldl_append_eq_join, foldl_append_eq_join xs ""]
  simp

theorem String_join_nil : String.join [] = "" := rfl

theorem foldl_build_eq_join {α : Type} (g : α → String) (l : List α) (init : String) :
    l.foldl (fun buf a => buf ++ g a) init = init ++ String.join (l.map g) := by
  induction l generalizing init with
  | nil => simp [String_join_nil]
  | cons x xs ih =>
    simp only [List.foldl_cons, List.map_cons, String_join_cons]
    rw [ih]
    simp [String.append_assoc]

namespace meter

/-! ## Maps as entry lists -/

theorem Tags.index_of_mem {tags : Tags} (h : tags.WellFormed) {k v : String}
    (hm : (k, v) ∈ tags) : tags.index k = v := by
  induction tags with
  | nil => simp at hm
  | cons e es ih =>
    obtain ⟨k0, v0⟩ := e
    unfold Tags.WellFormed at h
    simp only [List.map_cons, List.nodup_cons, List.mem_map, not_exists, not_and] at h
    unfold Tags.index
    rcases List.mem_cons.1 hm with heq | hin
    · cases heq
      simp [List.lookup]
    · have hne : k ≠ k0 := by
        intro hk
        exact h.1 (k, v) hin hk
      have hbeq : (k == k0) = false := by simpa using hne
      simp only [List.lookup, hbeq]
      exact ih h.2 hin

theorem Tags.index_perm {tags tags2 : Tags} (h : tags.WellFormed) (hp : tags2.Perm tags)
    {k : String} (hk : k ∈ tags.map Prod.fst) : tags2.index k = tags.index k := by
  have h2 : tags2.WellFormed := (hp.map Prod.fst).nodup_iff.2 h
  obtain ⟨⟨k1, v⟩, hm, rfl⟩ := List.mem_map.1 hk
  rw [Tags.index_of_mem h hm, Tags.index_of_mem h2 (hp.symm.subset hm)]

theorem Tags.sortedEntries_perm {tags : Tags} (h : tags.WellFormed) :
    tags.sortedEntries.Perm tags := by
  unfold Tags.sortedEntries
  have hp := (sort.Strings_perm (tags.map Prod.fst)).map (fun k => (k, tags.index k))
  refine hp.trans ?_
  rw [List.map_map]
  have : List.map ((fun k => (k, tags.index k)) ∘ Prod.fst) tags = List.map id tags := by
    apply List.map_congr_left
    rintro ⟨k, v⟩ hm
    simp [Tags.index_of_mem h hm]
  rw [this, List.map_id]

theorem Tags.sortedEntries_strict {tags : Tags} (h : tags.WellFormed) :
    tags.sortedEntries.Pairwise (fun a b => stringLess a.1 b.1 = true) := by
  unfold Tags.sortedEntries
  rw [List.pairwise_map]
  exact sort.Strings_strict h

theorem MapKey_NewId (name : String) (tags : Tags) :
    (NewId name tags).MapKey.1 =
      name ++ String.join (tags.sortedEntries.map fun kv => "|" ++ kv.1 ++ "|" ++ kv.2) := by
  unfold Id.MapKey NewId Tags.sortedEntries
  simp only [String.length, String.data, List.length_nil, gt_iff_lt, lt_self_iff_false, if_false]
  have := foldl_build_eq_join (fun k => "|" ++ k ++ "|" ++ tags.index k)
    (sort.Strings (tags.map Prod.fst)) name
  simp only [String.append_assoc] at this ⊢
  rw [this, List.map_map]
  rfl

/-- C2: the internal key of `NewId(name, tags)` is the name followed by
`|key|value` for each tag, the tags taken by ascending key; it is therefore the
same for every order in which the same entries are listed, and it is the name
alone when there are no tags. -/
theorem MapKey_sorted_by_key (name : String) (tags : Tags) (h : tags.WellFormed) :
    (∃ es : Tags, es.Perm tags ∧ es.Pairwise (fun a b => stringLess a.1 b.1 = true) ∧
      (NewId name tags).MapKey.1 =
        name ++ String.join (es.map fun kv => "|" ++ kv.1 ++ "|" ++ kv.2)) ∧
    (∀ tags2 : Tags, tags2.Perm tags →
      (NewId name tags2).MapKey.1 = (NewId name tags).MapKey.1) ∧
    (NewId name []).MapKey.1 = name := by
  refine ⟨⟨tags.sortedEntries, Tags.sortedEntries_perm h, Tags.sortedEntries_strict h,
    MapKey_NewId name tags⟩, ?_, ?_⟩
  · intro tags2 hp
    rw [MapKey_NewId, MapKey_NewId]
    have hs : tags2.sortedEntries = tags.sortedEntries := by
      unfold Tags.sortedEntries
      rw [sort.Strings_eq_of_perm (hp.map Prod.fst)]
      apply List.map_congr_left
      intro k hk
      have hk2 : k ∈ tags.map Prod.fst := (sort.Strings_perm _).subset hk
      rw [Tags.index_perm h hp hk2]
    rw [hs]
  · rw [MapKey_NewId]
    simp [Tags.sortedEntries, sort.Strings, String_join_nil]

theorem MapKey_sorted_by_key_witness :
    testTags100.WellFormed ∧
    (NewId "foo" testTags100).MapKey.1 = testKey100 ∧
    ((∃ es : Tags, es.Perm testTags100 ∧
        es.Pairwise (fun a b => stringLess a.1 b.1 = true) ∧
        (NewId "foo" testTags100).MapKey.1 =
          "foo" ++ String.join (es.map fun kv => "|" ++ kv.1 ++ "|" ++ kv.2)) ∧
      (∀ tags2 : Tags, tags2.Perm testTags100 →
        (NewId "foo" tags2).MapKey.1 = (NewId "foo" testTags100).MapKey.1) ∧
      (NewId "foo" []).MapKey.1 = "foo") :=
  ⟨by decide!, by decide!, MapKey_sorted_by_key "foo" testTags100 (by decide!)⟩

theorem Replaces_sanitized (s : String) : Replaces isValidCharacter s (sanitized s) := by
  unfold Replaces sanitized
  simp only
  induction s.data with
  | nil => exact List.Forall₂.nil
  | cons c cs ih => exact List.Forall₂.cons rfl ih

theorem Replaces_unique {allowed : Char → Bool} {s t u : String}
    (h1 : Replaces allowed s t) (h2 : Replaces allowed s u) : t = u := by
  apply String.ext
  unfold Replaces at h1 h2
  generalize s.data = a at h1 h2
  generalize t.data = b at h1 h2
  generalize u.data = c at h1 h2
  induction h1 generalizing c with
  | nil => cases h2; rfl
  | cons hx _ ih =>
    cases h2 with
    | cons hy hrest => rw [hx, hy, ih _ hrest]

theorem isValidCharacter_eq (r : Char) :
    isValidCharacter r = (inSpecAllowedSet r || r == '^') := by
  unfold isValidCharacter inSpecAllowedSet
  cases h1 : (r == '-') <;> cases h2 : (r == '.') <;> simp

theorem toSpectatorId_wire (name : String) (tags : Tags) :
    WireIdentifierOf isValidCharacter name tags (toSpectatorId name tags) := by
  refine ⟨sanitized name, tags.map (fun kv => (sanitized kv.1, sanitized kv.2)),
    Replaces_sanitized name, ?_, ?_⟩
  · induction tags with
    | nil => exact List.Forall₂.nil
    | cons kv rest ih =>
      exact List.Forall₂.cons ⟨Replaces_sanitized _, Replaces_sanitized _⟩ ih
  · unfold toSpectatorId
    rw [List.map_map]
    rfl

/-- C3 (as amended): the wire identifier is the cleaned name followed, tag by
tag, by `,`, the cleaned key, `=` and the cleaned value, where cleaning
replaces by `_` every character outside the set of ASCII letters, digits, `.`,
`-`, `_`, `~` and `^` and keeps every character of that set. -/
theorem toSpectatorId_replaces_invalid (name : String) (tags : Tags) :
    WireIdentifierOf (fun r => inSpecAllowedSet r || r == '^') name tags
      (toSpectatorId name tags) := by
  have h := toSpectatorId_wire name tags
  have hf : isValidCharacter = fun r => inSpecAllowedSet r || r == '^' :=
    funext isValidCharacter_eq
  rw [hf] at h
  exact h

/-- C3 (as stated) fails: `^` is outside the set of ASCII letters, digits, `.`,
`-`, `_` and `~`, yet the wire identifier of the name `^` is `^`, not `_`; and
on the name and tags of `TestToSpectatorId_InvalidTags` the wire identifier is
the string that test expects, in which the `^` of the name is kept. -/
theorem toSpectatorId_keeps_caret :
    inSpecAllowedSet '^' = false ∧
    toSpectatorId "^" [] = "^" ∧
    ¬ WireIdentifierOf inSpecAllowedSet "^" [] (toSpectatorId "^" []) ∧
    toSpectatorId testInvalidName testInvalidTags =
      "test______^____-_~______________.___foo,tag1___=value1___,tag2___=value2___" := by
  refine ⟨by decide, by decide, ?_, by decide⟩
  rintro ⟨n, kvs, hn, hk, hout⟩
  cases hk
  have hn2 : Replaces inSpecAllowedSet "^" "_" := by
    unfold Replaces
    exact List.Forall₂.cons (by decide) List.Forall₂.nil
  have : n = "_" := Replaces_unique hn hn2
  subst this
  revert hout
  decide

end meter

theorem foldl_push_eq (g : Char → Char) (l : List Char) (acc : String) :
    l.foldl (fun (result : String) r => result.push (g r)) acc = acc ++ ⟨l.map g⟩ := by
  induction l generalizing acc with
  | nil => exact String.ext (by simp)
  | cons c cs ih =>
    simp only [List.foldl_cons, List.map_cons]
    rw [ih]
    exact String.ext (by simp [String.push])

namespace meter

theorem replaceInvalidCharacters_eq_sanitized (s : String) :
    replaceInvalidCharacters s = sanitized s := by
  unfold replaceInvalidCharacters sanitized
  have h := foldl_push_eq (fun r => if isValidCharacter r then r else '_') s.data ""
  have hf : (fun (result : String) r =>
      if (!isValidCharacter r) = true then result.push '_' else result.push r) =
      (fun (result : String) r => result.push (if isValidCharacter r then r else '_')) := by
    funext result r
    cases isValidCharacter r <;> simp
  rw [hf, h]
  exact String.ext (by simp)

/-- C4: the wire identifier is the cleaned name followed, for each tag once and
in the order the tags are visited, by `,`, the cleaned key, `=` and the cleaned
value; it is what the reference `originalToSpectatorId` of the benchmark
computes, and with no tags it is the cleaned name alone. -/
theorem toSpectatorId_eq_original (name : String) (tags : Tags) :
    toSpectatorId name tags =
      replaceInvalidCharacters name ++
        String.join (tags.map fun kv =>
          "," ++ replaceInvalidCharacters kv.1 ++ "=" ++ replaceInvalidCharacters kv.2) ∧
    toSpectatorId name tags = originalToSpectatorId name tags ∧
    toSpectatorId name [] = replaceInvalidCharacters name ∧
    toSpectatorId "test" [] = "test" ∧
    toSpectatorId "test" [("tag1", "value1"), ("tag2", "value2")] =
      "test,tag1=value1,tag2=value2" ∧
    toSpectatorId "test" [("tag2", "value2"), ("tag1", "value1")] =
      "test,tag2=value2,tag1=value1" := by
  have h1 : toSpectatorId name tags =
      replaceInvalidCharacters name ++
        String.join (tags.map fun kv =>
          "," ++ replaceInvalidCharacters kv.1 ++ "=" ++ replaceInvalidCharacters kv.2) := by
    unfold toSpectatorId
    simp only [replaceInvalidCharacters_eq_sanitized]
  refine ⟨h1, ?_, ?_, by decide, by decide, by decide⟩
  · rw [h1]
    unfold originalToSpectatorId
    have := foldl_build_eq_join
      (fun kv : String × String =>
        "," ++ replaceInvalidCharacters kv.1 ++ "=" ++ replaceInvalidCharacters kv.2)
      tags (replaceInvalidCharacters name)
    simp only [String.append_assoc] at this ⊢
    rw [← this]
  · unfold toSpectatorId
    rw [replaceInvalidCharacters_eq_sanitized]
    simp [String_join_nil]

end meter

theorem splitAt_of_not_mem (sep : Char) (a : List Char) (h : sep ∉ a) :
    splitAt sep a = [a] := by
  induction a with
  | nil => rfl
  | cons c cs ih =>
    have hc : c ≠ sep := fun e => h (by simp [e])
    have hcs : sep ∉ cs := fun e => h (by simp [e])
    simp [splitAt, hc, ih hcs]

theorem splitAt_append_sep (sep : Char) (a b : List Char) (h : sep ∉ a) :
    splitAt sep (a ++ sep :: b) = a :: splitAt sep b := by
  induction a with
  | nil => simp [splitAt]
  | cons c cs ih =>
    have hc : c ≠ sep := fun e => h (by simp [e])
    have hcs : sep ∉ cs := fun e => h (by simp [e])
    simp [splitAt, hc, ih hcs]

namespace meter

theorem sanitized_valid (s : String) : ∀ c ∈ (sanitized s).data, isValidCharacter c = true := by
  intro c hc
  unfold sanitized at hc
  simp only [List.mem_map] at hc
  obtain ⟨r, _, rfl⟩ := hc
  by_cases h : isValidCharacter r = true
  · rw [if_pos h]
    exact h
  · rw [if_neg h]
    decide

theorem sanitized_not_mem (s : String) (c : Char) (hc : isValidCharacter c = false) :
    c ∉ (sanitized s).data := by
  intro h
  rw [sanitized_valid s c h] at hc
  exact Bool.noConfusion hc

/-- The part of the wire identifier after the name. -/
theorem wireTail_cons (kv : String × String) (rest : Tags) :
    (String.join ((kv :: rest).map fun kv => "," ++ sanitized kv.1 ++ "=" ++ sanitized kv.2)).data
      = ',' :: ((sanitized kv.1).data ++ '=' :: (sanitized kv.2).data) ++
        (String.join (rest.map fun kv => "," ++ sanitized kv.1 ++ "=" ++ sanitized kv.2)).data := by
  rw [List.map_cons, String_join_cons]
  simp [String.data_append]

theorem wireTail_count (c : Char) (hc : isValidCharacter c = false) (tags : Tags) :
    (String.join (tags.map fun kv => "," ++ sanitized kv.1 ++ "=" ++ sanitized kv.2)).data.count c
      = tags.length * ((if c = ',' then 1 else 0) + (if c = '=' then 1 else 0)) := by
  induction tags with
  | nil => simp [String_join_nil]
  | cons kv rest ih =>
    rw [wireTail_cons, List.length_cons, Nat.succ_mul]
    have h1 := List.count_eq_zero.2 (sanitized_not_mem kv.1 c hc)
    have h2 := List.count_eq_zero.2 (sanitized_not_mem kv.2 c hc)
    simp only [List.count_cons, List.count_append, h1, h2, ih, beq_iff_eq]
    have e1 : (',' = c) = (c = ',') := propext eq_comm
    have e2 : ('=' = c) = (c = '=') := propext eq_comm
    simp only [e1, e2]
    omega

theorem wireTail_split (tags : Tags) (a : List Char) (ha : ',' ∉ a) :
    splitAt ','
      (a ++ (String.join (tags.map fun kv => "," ++ sanitized kv.1 ++ "=" ++ sanitized kv.2)).data)
      = a :: tags.map fun kv => (sanitized kv.1).data ++ '=' :: (sanitized kv.2).data := by
  induction tags generalizing a with
  | nil => simp [String_join_nil, splitAt_of_not_mem _ _ ha]
  | cons kv rest ih =>
    rw [wireTail_cons, List.cons_append, splitAt_append_sep _ _ _ ha, List.map_cons]
    congr 1
    apply ih
    simp only [List.mem_append, List.mem_cons, not_or]
    exact ⟨sanitized_not_mem kv.1 ',' (by decide), by decide,
      sanitized_not_mem kv.2 ',' (by decide)⟩

/-- C5: whatever characters the name, the keys and the values contain, the wire
identifier of a name and `n` tags contains exactly `n` characters `,` and
exactly `n` characters `=`; cleaned strings contain neither; and splitting the
identifier at `,` gives the cleaned name followed by exactly one piece
`key=value` per tag, made of the cleaned key and the cleaned value. -/
theorem toSpectatorId_unambiguous (name : String) (tags : Tags) :
    (toSpectatorId name tags).data.count ',' = tags.length ∧
    (toSpectatorId name tags).data.count '=' = tags.length ∧
    (∀ s : String, ',' ∉ (replaceInvalidCharacters s).data ∧
      '=' ∉ (replaceInvalidCharacters s).data) ∧
    (splitAt ',' (toSpectatorId name tags).data).map String.mk =
      replaceInvalidCharacters name ::
        tags.map (fun kv =>
          replaceInvalidCharacters kv.1 ++ "=" ++ replaceInvalidCharacters kv.2) ∧
    toSpectatorId "a,b" [] = "a_b" ∧
    (splitAt ',' (toSpectatorId "test" testInvalidTags).data).map String.mk =
      ["test", "tag1___=value1___", "tag2___=value2___"] := by
  refine ⟨?_, ?_, ?_, ?_, by decide, by decide⟩
  · unfold toSpectatorId
    rw [String.data_append, List.count_append, wireTail_count ',' (by decide),
      List.count_eq_zero.2 (sanitized_not_mem name ',' (by decide))]
    simp
  · unfold toSpectatorId
    rw [String.data_append, List.count_append, wireTail_count '=' (by decide),
      List.count_eq_zero.2 (sanitized_not_mem name '=' (by decide))]
    simp
  · intro s
    rw [replaceInvalidCharacters_eq_sanitized]
    exact ⟨sanitized_not_mem s ',' (by decide), sanitized_not_mem s '=' (by decide)⟩
  · unfold toSpectatorId
    rw [String.data_append, wireTail_split tags _ (sanitized_not_mem name ',' (by decide))]
    simp only [replaceInvalidCharacters_eq_sanitized, List.map_cons, List.map_map]
    congr 1
    apply List.map_congr_left
    intro kv _
    exact String.ext (by simp [String.data_append])

open writer in
/-- C7: for a counter made by `NewCounter` on any writer, `Add(delta)` leaves the
counter and its writer untouched when `delta ≤ 0`, and when `delta > 0` it
passes to the writer's `Write`, once, the line `c:` + wire identifier + `:` +
the decimal rendering of `delta`; on a `MemoryWriter`, which records every
line written, nothing is appended in the first case and exactly that line in
the second. -/
theorem Counter_Add_writes (σ : Type) [Writer σ] (id : Id) (w : σ) (mw : MemoryWriter)
    (delta : Int) :
    (delta ≤ 0 →
      (NewCounter id w).Add delta = NewCounter id w ∧
      ((NewCounter id mw).Add delta).writer.Lines = mw.Lines) ∧
    (0 < delta →
      (NewCounter id w).Add delta =
        { NewCounter id w with
          writer := Writer.Write w ("c:" ++ id.spectatordId ++ ":" ++ fmt.d delta) } ∧
      ((NewCounter id mw).Add delta).writer.Lines =
        mw.Lines ++ ["c:" ++ id.spectatordId ++ ":" ++ fmt.d delta]) := by
  constructor
  · intro h
    have h2 : ¬ delta > 0 := not_lt.2 h
    simp [Counter.Add, h2, NewCounter]
  · intro h
    have h2 : delta > 0 := h
    simp [Counter.Add, h2, NewCounter, Writer.Write, MemoryWriter.Write, MemoryWriter.Lines,
      String.append_assoc]

open writer in
theorem Counter_Add_writes_witness :
    ((NewCounter (NewId "test_counter" []) (MemoryWriter.mk [])).Add (-5)).writer.Lines = [] ∧
    ((NewCounter (NewId "test_counter" []) (MemoryWriter.mk [])).Add 0).writer.Lines = [] ∧
    ((NewCounter (NewId "test_counter" []) (MemoryWriter.mk [])).Add 5).writer.Lines =
      ["c:test_counter:5"] :=
  ⟨((Counter_Add_writes NoopWriter (NewId "test_counter" []) {} (MemoryWriter.mk []) (-5)).1
      (by decide)).2,
    ((Counter_Add_writes NoopWriter (NewId "test_counter" []) {} (MemoryWriter.mk []) 0).1
      (by decide)).2,
    ((Counter_Add_writes NoopWriter (NewId "test_counter" []) {} (MemoryWriter.mk []) 5).2
      (by decide)).2⟩

end meter

namespace writer

theorem MemoryWriter.Lines_foldl_Write (l : List String) (m : MemoryWriter) :
    (l.foldl MemoryWriter.Write m).Lines = m.Lines ++ l := by
  induction l generalizing m with
  | nil => simp
  | cons x xs ih =>
    rw [List.foldl_cons, ih]
    simp [MemoryWriter.Write, MemoryWriter.Lines]

/-- C9: when the lines `lines` are written to a fresh `MemoryWriter`, one
`Write` at a time and in whatever order `order` the writes take effect,
`Lines()` returns the lines in that order: as many as were written, each
payload as often as it was written. -/
theorem MemoryWriter_Lines_after_writes (lines order : List String) (h : order.Perm lines) :
    (order.foldl MemoryWriter.Write { lines := [] }).Lines = order ∧
    (order.foldl MemoryWriter.Write { lines := [] }).Lines.length = lines.length ∧
    (order.foldl MemoryWriter.Write { lines := [] }).Lines.Perm lines ∧
    (∀ payload : String,
      (order.foldl MemoryWriter.Write { lines := [] }).Lines.count payload =
        lines.count payload) := by
  have e : (order.foldl MemoryWriter.Write { lines := [] }).Lines = order := by
    rw [MemoryWriter.Lines_foldl_Write]
    simp [MemoryWriter.Lines]
  rw [e]
  exact ⟨rfl, h.length_eq, h, fun p => h.count_eq p⟩

theorem MemoryWriter_Lines_after_writes_witness :
    ["b", "c", "a"].Perm ["a", "b", "c"] ∧
    ((["b", "c", "a"].foldl MemoryWriter.Write { lines := [] }).Lines = ["b", "c", "a"] ∧
    (["b", "c", "a"].foldl MemoryWriter.Write { lines := [] }).Lines.length
      = ["a", "b", "c"].length ∧
    (["b", "c", "a"].foldl MemoryWriter.Write { lines := [] }).Lines.Perm ["a", "b", "c"] ∧
    (∀ payload : String,
      (["b", "c", "a"].foldl MemoryWriter.Write { lines := [] }).Lines.count payload =
        ["a", "b", "c"].count payload)) :=
  ⟨by decide, MemoryWriter_Lines_after_writes ["a", "b", "c"] ["b", "c", "a"] (by decide)⟩

/-- C10: whatever a `MemoryWriter` holds, after `Reset()` its `Lines()` is
empty, and after further writes `Lines()` is exactly the lines written since
the `Reset()`, in the order written. -/
theorem MemoryWriter_Reset_clears (m : MemoryWriter) (after : List String) :
    m.Reset.Lines = [] ∧ (after.foldl MemoryWriter.Write m.Reset).Lines = after := by
  refine ⟨rfl, ?_⟩
  rw [MemoryWriter.Lines_foldl_Write]
  simp [MemoryWriter.Reset, MemoryWriter.Lines]

end writer

/-! ## Decimal digits -/

theorem digitChar_isDigit : ∀ k : Nat, k < 10 → (Nat.digitChar k).isDigit = true := by
  decide

theorem toDigitsCore_isDigit (fuel : Nat) : ∀ (n : Nat) (acc : List Char),
    (∀ c ∈ acc, c.isDigit = true) → ∀ c ∈ Nat.toDigitsCore 10 fuel n acc, c.isDigit = true := by
  induction fuel with
  | zero => intro n acc h; simpa [Nat.toDigitsCore] using h
  | succ k ih =>
    intro n acc h
    have hd : (Nat.digitChar (n % 10)).isDigit = true :=
      digitChar_isDigit _ (Nat.mod_lt _ (by decide))
    have hacc : ∀ c ∈ Nat.digitChar (n % 10) :: acc, c.isDigit = true := by
      intro c hc
      rcases List.mem_cons.1 hc with rfl | hc
      · exact hd
      · exact h c hc
    simp only [Nat.toDigitsCore]
    split
    · exact hacc
    · exact ih _ _ hacc

theorem repr_isDigit (n : Nat) : ∀ c ∈ (Nat.repr n).data, c.isDigit = true := by
  unfold Nat.repr Nat.toDigits
  exact toDigitsCore_isDigit _ _ _ (by simp)

theorem fractionDigits_length (n : Nat) : (fmt.fractionDigits n).length = 6 := by
  simp [fmt.fractionDigits]

theorem fractionDigits_isDigit (n : Nat) : ∀ c ∈ fmt.fractionDigits n, c.isDigit = true := by
  intro c hc
  simp only [fmt.fractionDigits, List.mem_map] at hc
  obtain ⟨i, _, rfl⟩ := hc
  exact digitChar_isDigit _ (Nat.mod_lt _ (by decide))

/-! ## Signs of `float64` results -/

theorem Float64.round_num_nonneg (num : Int) (den : Nat) (h : 0 ≤ num) :
    0 ≤ (Float64.round num den).num := by
  unfold Float64.round
  have hs : 0 ≤ num.sign := Int.sign_nonneg.2 h
  simp only
  split_ifs <;> first | exact le_refl _ | exact Int.mul_nonneg hs (Int.ofNat_nonneg _)

theorem Duration_Seconds_nonneg (d : Int) (h : 0 ≤ d) : 0 ≤ (time.Duration.Seconds d).num := by
  unfold time.Duration.Seconds Float64.add Float64.div Float64.ofInt
  have hsec : 0 ≤ d.tdiv time.Second := Int.tdiv_nonneg h (by decide)
  have hnsec : 0 ≤ d.tmod time.Second := Int.tmod_nonneg _ h
  apply Float64.round_num_nonneg
  apply Int.add_nonneg
  · exact Int.mul_nonneg (Float64.round_num_nonneg _ _ hsec) (Int.ofNat_nonneg _)
  · apply Int.mul_nonneg _ (Int.ofNat_nonneg _)
    apply Float64.round_num_nonneg
    apply Int.mul_nonneg
    · exact Int.mul_nonneg (Float64.round_num_nonneg _ _ hnsec) (Int.ofNat_nonneg _)
    · exact Int.sign_nonneg.2 (Float64.round_num_nonneg _ _ (by decide))

theorem fmt_f_shape (x : Float64) (h : 0 ≤ x.num) :
    fmt.f x = Nat.repr (fmt.millionths x / 10 ^ 6) ++ "." ++
      String.mk (fmt.fractionDigits (fmt.millionths x)) := by
  unfold fmt.f
  simp [not_lt.2 h]

/-! ## Rounding errors -/

theorem roundHalfEven_err (n d : Nat) (hd : 0 < d) :
    |((roundHalfEven n d : Nat) : ℚ) - (n : ℚ) / (d : ℚ)| ≤ 1 / 2 := by
  have hdq : (0 : ℚ) < d := by exact_mod_cast hd
  have hn : (n : ℚ) = (d : ℚ) * ((n / d : Nat) : ℚ) + ((n % d : Nat) : ℚ) := by
    exact_mod_cast (Nat.div_add_mod n d).symm
  have hr : ((n % d : Nat) : ℚ) < d := by exact_mod_cast Nat.mod_lt n hd
  have hr0 : (0 : ℚ) ≤ ((n % d : Nat) : ℚ) := by positivity
  have hdiv : (n : ℚ) / d = ((n / d : Nat) : ℚ) + ((n % d : Nat) : ℚ) / d := by
    rw [hn]
    field_simp
    ring
  have hfrac0 : (0 : ℚ) ≤ ((n % d : Nat) : ℚ) / d := div_nonneg hr0 hdq.le
  have hfrac1 : ((n % d : Nat) : ℚ) / d < 1 := (div_lt_one hdq).2 hr
  unfold roundHalfEven
  simp only
  rw [hdiv, abs_le]
  split_ifs with h1 h2 h3
  · have : ((n % d : Nat) : ℚ) / d ≤ 1 / 2 := by
      rw [div_le_iff₀ hdq]
      have : (2 : ℚ) * ((n % d : Nat) : ℚ) < d := by exact_mod_cast h1
      linarith
    constructor <;> linarith
  · have : 1 / 2 ≤ ((n % d : Nat) : ℚ) / d := by
      rw [le_div_iff₀ hdq]
      have : (d : ℚ) < 2 * ((n % d : Nat) : ℚ) := by exact_mod_cast h2
      linarith
    push_cast
    constructor <;> linarith
  · have h4 : 2 * (n % d) = d := by omega
    have : ((n % d : Nat) : ℚ) / d = 1 / 2 := by
      rw [div_eq_iff hdq.ne']
      have : (2 : ℚ) * ((n % d : Nat) : ℚ) = d := by exact_mod_cast h4
      linarith
    constructor <;> linarith
  · have h4 : 2 * (n % d) = d := by omega
    have : ((n % d : Nat) : ℚ) / d = 1 / 2 := by
      rw [div_eq_iff hdq.ne']
      have : (2 : ℚ) * ((n % d : Nat) : ℚ) = d := by exact_mod_cast h4
      linarith
    push_cast
    constructor <;> linarith

theorem roundHalfEven_one (n : Nat) : roundHalfEven n 1 = n := by
  simp [roundHalfEven, Nat.mod_one]

theorem bitLengthAux_spec (fuel : Nat) : ∀ n : Nat, 0 < n → n < 2 ^ fuel →
    2 ^ (bitLengthAux fuel n - 1) ≤ n ∧ n < 2 ^ bitLengthAux fuel n ∧ 0 < bitLengthAux fuel n := by
  induction fuel with
  | zero => intro n h0 h; simp at h; omega
  | succ k ih =>
    intro n h0 h
    have hne : n ≠ 0 := by omega
    simp only [bitLengthAux, hne, if_false]
    by_cases h1 : n / 2 = 0
    · have hn1 : n = 1 := by omega
      subst hn1
      cases k <;> simp [bitLengthAux]
    · have hpos : 0 < n / 2 := Nat.pos_of_ne_zero h1
      have hlt : n / 2 < 2 ^ k := by
        rw [Nat.div_lt_iff_lt_mul (by decide)]
        rw [pow_succ] at h
        exact h
      obtain ⟨a, b, c⟩ := ih (n / 2) hpos hlt
      refine ⟨?_, ?_, by omega⟩
      · simp only [Nat.add_sub_cancel]
        have e : bitLengthAux k (n / 2) = (bitLengthAux k (n / 2) - 1) + 1 := by omega
        rw [e, pow_succ]
        omega
      · rw [pow_succ]
        omega

theorem bitLength_spec (n : Nat) (h : 0 < n) :
    2 ^ (bitLength n - 1) ≤ n ∧ n < 2 ^ bitLength n ∧ 0 < bitLength n :=
  bitLengthAux_spec n n h (Nat.lt_two_pow n)

theorem binaryExponent_lt (n den B : Nat) (hn : 0 < n) (hden : 0 < den)
    (hB : n < den * 2 ^ B) : binaryExponent n den ≤ (B : Int) - 1 := by
  unfold binaryExponent
  simp only
  obtain ⟨hlo, _, _⟩ := bitLength_spec n hn
  obtain ⟨_, hhi, _⟩ := bitLength_spec den hden
  split_ifs with hc
  · rcases hc with ⟨h0, hle⟩ | ⟨hneg, _⟩
    · by_contra hcon
      have hB2 : B ≤ ((bitLength n : Int) - (bitLength den : Int)).toNat := by omega
      have h1 : 2 ^ B ≤ 2 ^ ((bitLength n : Int) - (bitLength den : Int)).toNat :=
        Nat.pow_le_pow_right (by decide) hB2
      have h2 : den * 2 ^ B ≤ den * 2 ^ ((bitLength n : Int) - (bitLength den : Int)).toNat :=
        Nat.mul_le_mul_left _ h1
      omega
    · omega
  · by_contra hcon
    have hab : bitLength den + B ≤ bitLength n - 1 := by omega
    have h1 : 2 ^ (bitLength den + B) ≤ 2 ^ (bitLength n - 1) :=
      Nat.pow_le_pow_right (by decide) hab
    rw [pow_add] at h1
    have h2 : den * 2 ^ B < 2 ^ bitLength den * 2 ^ B :=
      Nat.mul_lt_mul_of_pos_right hhi (by positivity)
    omega

theorem Float64.round_err (num : Int) (den B : Nat) (h0 : 0 ≤ num) (hden : 0 < den)
    (hB : num < (den : Int) * 2 ^ B) :
    0 < (Float64.round num den).den ∧
    |(Float64.round num den).val - (num : ℚ) / (den : ℚ)| ≤ 2 ^ B / 2 ^ 54 := by
  obtain ⟨n, rfl⟩ := Int.eq_ofNat_of_zero_le h0
  have hBn : n < den * 2 ^ B := by exact_mod_cast hB
  have hdq : (0 : ℚ) < den := by exact_mod_cast hden
  unfold Float64.round
  simp only [Int.natAbs_ofNat]
  by_cases hn : n = 0
  · subst hn
    simp [Float64.val]
    positivity
  · have hnpos : 0 < n := Nat.pos_of_ne_zero hn
    have hsign : ((n : Int)).sign = 1 := Int.sign_eq_one_of_pos (by exact_mod_cast hnpos)
    have hcond : ¬ (n = 0 ∨ den = 0) := by omega
    rw [if_neg hcond, hsign]
    have he := binaryExponent_lt n den B hnpos hden hBn
    generalize binaryExponent n den = e at he
    split_ifs with hp
    · -- spacing at least one
      set k := (max e (-1022) - 52).toNat with hk
      have hkB : k + 53 ≤ B := by omega
      have hu : (0 : ℚ) < 2 ^ k := by positivity
      have herr := roundHalfEven_err n (den * 2 ^ k) (by positivity)
      refine ⟨Nat.one_pos, ?_⟩
      simp only [Float64.val]
      push_cast at herr ⊢
      rw [one_mul, div_one]
      have hrw : ((roundHalfEven n (den * 2 ^ k) : Nat) : ℚ) * 2 ^ k - (n : ℚ) / den
          = 2 ^ k * (((roundHalfEven n (den * 2 ^ k) : Nat) : ℚ) - (n : ℚ) / (den * 2 ^ k)) := by
        field_simp
        ring
      rw [hrw, abs_mul, abs_of_pos hu]
      have hpow : (2 : ℚ) ^ k * (1 / 2) ≤ 2 ^ B / 2 ^ 54 := by
        rw [le_div_iff₀ (by positivity)]
        have : (2 : ℚ) ^ B = 2 ^ (k + 53) * 2 ^ (B - (k + 53)) := by
          rw [← pow_add]
          congr 1
          omega
        rw [this]
        have h1 : (1 : ℚ) ≤ 2 ^ (B - (k + 53)) := one_le_pow₀ (by norm_num)
        have h2 : (2 : ℚ) ^ k * (1 / 2) * 2 ^ 54 = 2 ^ (k + 53) := by
          rw [pow_add]
          norm_num
          ring
        rw [h2]
        exact le_mul_of_one_le_right (by positivity) h1
      exact le_trans (mul_le_mul_of_nonneg_left herr hu.le) hpow
    · set k := (-(max e (-1022) - 52)).toNat with hk
      have hkB : 53 ≤ B + k := by omega
      have hu : (0 : ℚ) < 2 ^ k := by positivity
      have herr := roundHalfEven_err (n * 2 ^ k) den hden
      refine ⟨by positivity, ?_⟩
      simp only [Float64.val]
      push_cast at herr ⊢
      rw [one_mul]
      have hrw : ((roundHalfEven (n * 2 ^ k) den : Nat) : ℚ) / 2 ^ k - (n : ℚ) / den
          = (((roundHalfEven (n * 2 ^ k) den : Nat) : ℚ) - (n : ℚ) * 2 ^ k / den) / 2 ^ k := by
        field_simp
        ring
      rw [hrw, abs_div, abs_of_pos hu, div_le_iff₀ hu]
      have hpow : (1 : ℚ) / 2 ≤ 2 ^ B / 2 ^ 54 * 2 ^ k := by
        rw [div_mul_eq_mul_div, le_div_iff₀ (by positivity), ← pow_add]
        have : (2 : ℚ) ^ (B + k) = 2 ^ 53 * 2 ^ (B + k - 53) := by
          rw [← pow_add]
          congr 1
          omega
        rw [this]
        have h1 : (1 : ℚ) ≤ 2 ^ (B + k - 53) := one_le_pow₀ (by norm_num)
        have h2 : (1 : ℚ) / 2 * 2 ^ 54 = 2 ^ 53 := by norm_num
        rw [h2]
        exact le_mul_of_one_le_right (by positivity) h1
      exact le_trans herr hpow

theorem Float64.round_spec (num : Int) (den B : Nat) (h0 : 0 ≤ num) (hden : 0 < den)
    (hB : (num : ℚ) / (den : ℚ) < 2 ^ B) :
    0 < (Float64.round num den).den ∧
    |(Float64.round num den).val - (num : ℚ) / (den : ℚ)| ≤ 2 ^ B / 2 ^ 54 := by
  apply Float64.round_err num den B h0 hden
  have hdq : (0 : ℚ) < den := by exact_mod_cast hden
  rw [div_lt_iff₀ hdq] at hB
  have : (num : ℚ) < ((den : Int) * 2 ^ B : Int) := by
    push_cast
    linarith
  exact_mod_cast this

theorem bitLength_one : bitLength 1 = 1 := by decide

theorem binaryExponent_one (n : Nat) (hn : 0 < n) :
    binaryExponent n 1 = (bitLength n : Int) - 1 := by
  obtain ⟨hlo, _, hpos⟩ := bitLength_spec n hn
  unfold binaryExponent
  simp only [bitLength_one]
  have hc : (0 : Int) ≤ (bitLength n : Int) - ((1 : Nat) : Int) := by omega
  have ht : ((bitLength n : Int) - ((1 : Nat) : Int)).toNat = bitLength n - 1 := by omega
  rw [if_pos]
  · rfl
  · left
    refine ⟨hc, ?_⟩
    rw [ht, one_mul]
    exact hlo

theorem Float64.ofInt_exact (n : Int) (h0 : 0 ≤ n) (h : n < 2 ^ 53) :
    0 ≤ (Float64.ofInt n).num ∧ 0 < (Float64.ofInt n).den ∧ (Float64.ofInt n).val = n := by
  refine ⟨Float64.round_num_nonneg n 1 h0, ?_⟩
  obtain ⟨m, rfl⟩ := Int.eq_ofNat_of_zero_le h0
  have hm : m < 2 ^ 53 := by exact_mod_cast h
  unfold Float64.ofInt Float64.round
  simp only [Int.natAbs_ofNat]
  by_cases hz : m = 0
  · subst hz
    simp [Float64.val]
  · have hpos : 0 < m := Nat.pos_of_ne_zero hz
    have hsign : ((m : Int)).sign = 1 := Int.sign_eq_one_of_pos (by exact_mod_cast hpos)
    have hcond : ¬ (m = 0 ∨ 1 = 0) := by omega
    rw [if_neg hcond, hsign, binaryExponent_one m hpos]
    obtain ⟨hlo, _, hbpos⟩ := bitLength_spec m hpos
    have hb : bitLength m ≤ 53 := by
      by_contra hcon
      have : 2 ^ 53 ≤ 2 ^ (bitLength m - 1) := Nat.pow_le_pow_right (by decide) (by omega)
      omega
    split_ifs with hp
    · have hk : (max ((bitLength m : Int) - 1) (-1022) - 52).toNat = 0 := by omega
      rw [hk]
      simp [Float64.val, roundHalfEven_one]
    · refine ⟨by positivity, ?_⟩
      simp only [Float64.val, one_mul, roundHalfEven_one]
      push_cast
      field_simp

theorem Float64.div_spec (a b : Float64) (B : Nat) (ha : 0 ≤ a.num) (had : 0 < a.den)
    (hb : 0 < b.num) (hbd : 0 < b.den) (hB : a.val / b.val < 2 ^ B) :
    0 ≤ (Float64.div a b).num ∧ 0 < (Float64.div a b).den ∧
    |(Float64.div a b).val - a.val / b.val| ≤ 2 ^ B / 2 ^ 54 := by
  have hsign : b.num.sign = 1 := Int.sign_eq_one_of_pos hb
  have hnat : ((b.num.natAbs : Nat) : Int) = b.num := Int.natAbs_of_nonneg hb.le
  have hnatq : ((b.num.natAbs : Nat) : ℚ) = (b.num : ℚ) := by
    rw [Nat.cast_natAbs, abs_of_pos hb]
  have hbq : (0 : ℚ) < b.num := by exact_mod_cast hb
  have hadq : (0 : ℚ) < a.den := by exact_mod_cast had
  have hbdq : (0 : ℚ) < b.den := by exact_mod_cast hbd
  have hval : ((a.num * b.den * b.num.sign : Int) : ℚ) / ((a.den * b.num.natAbs : Nat) : ℚ)
      = a.val / b.val := by
    rw [hsign]
    push_cast
    rw [hnatq]
    simp only [Float64.val]
    field_simp
  have hnn : 0 ≤ a.num * b.den * b.num.sign := by
    rw [hsign]
    exact Int.mul_nonneg (Int.mul_nonneg ha (Int.ofNat_nonneg _)) (by decide)
  have hdpos : 0 < a.den * b.num.natAbs := by
    have : 0 < b.num.natAbs := Int.natAbs_pos.2 hb.ne'
    positivity
  unfold Float64.div
  refine ⟨Float64.round_num_nonneg _ _ hnn, ?_⟩
  have := Float64.round_spec _ _ B hnn hdpos (by rw [hval]; exact hB)
  rw [hval] at this
  exact this

theorem Float64.add_spec (a b : Float64) (B : Nat) (ha : 0 ≤ a.num) (had : 0 < a.den)
    (hb : 0 ≤ b.num) (hbd : 0 < b.den) (hB : a.val + b.val < 2 ^ B) :
    0 ≤ (Float64.add a b).num ∧ 0 < (Float64.add a b).den ∧
    |(Float64.add a b).val - (a.val + b.val)| ≤ 2 ^ B / 2 ^ 54 := by
  have hadq : (0 : ℚ) < a.den := by exact_mod_cast had
  have hbdq : (0 : ℚ) < b.den := by exact_mod_cast hbd
  have hval : ((a.num * b.den + b.num * a.den : Int) : ℚ) / ((a.den * b.den : Nat) : ℚ)
      = a.val + b.val := by
    push_cast
    simp only [Float64.val]
    field_simp
  have hnn : 0 ≤ a.num * b.den + b.num * a.den :=
    Int.add_nonneg (Int.mul_nonneg ha (Int.ofNat_nonneg _))
      (Int.mul_nonneg hb (Int.ofNat_nonneg _))
  have hdpos : 0 < a.den * b.den := by positivity
  unfold Float64.add
  refine ⟨Float64.round_num_nonneg _ _ hnn, ?_⟩
  have := Float64.round_spec _ _ B hnn hdpos (by rw [hval]; exact hB)
  rw [hval] at this
  exact this

theorem Duration_Seconds_err (d : Int) (k : Nat) (h0 : 0 ≤ d) (hk : k ≤ 34)
    (hd : d < 2 ^ k * 10 ^ 9) :
    0 ≤ (time.Duration.Seconds d).num ∧ 0 < (time.Duration.Seconds d).den ∧
    |(time.Duration.Seconds d).val - (d : ℚ) / 10 ^ 9| ≤ (2 ^ k + 1) / 2 ^ 54 := by
  have hS : time.Second = 10 ^ 9 := by decide
  have hsec_eq : d.tdiv time.Second = d / 10 ^ 9 := by
    rw [hS]
    exact Int.tdiv_eq_ediv h0 (by norm_num)
  have hnsec_eq : d.tmod time.Second = d % 10 ^ 9 := by
    rw [hS]
    exact Int.tmod_eq_emod h0 (by norm_num)
  have hsec0 : 0 ≤ d / 10 ^ 9 := Int.ediv_nonneg h0 (by norm_num)
  have hsec1 : d / 10 ^ 9 < 2 ^ k := Int.ediv_lt_of_lt_mul (by norm_num) hd
  have hpow : (2 : Int) ^ k ≤ 2 ^ 34 := pow_le_pow_right₀ (by norm_num) hk
  have hsec2 : d / 10 ^ 9 < 2 ^ 53 := by
    have : (2 : Int) ^ 34 < 2 ^ 53 := by norm_num
    omega
  have hns0 : 0 ≤ d % 10 ^ 9 := Int.emod_nonneg d (by norm_num)
  have hns1 : d % 10 ^ 9 < 10 ^ 9 := Int.emod_lt_of_pos d (by norm_num)
  have hsum : d % 10 ^ 9 + 10 ^ 9 * (d / 10 ^ 9) = d := Int.emod_add_ediv d (10 ^ 9)
  obtain ⟨hA0, hAd, hAv⟩ := Float64.ofInt_exact (d / 10 ^ 9) hsec0 hsec2
  obtain ⟨hN0, hNd, hNv⟩ := Float64.ofInt_exact (d % 10 ^ 9) hns0 (by omega)
  obtain ⟨hG0, hGd, hGv⟩ := Float64.ofInt_exact 1000000000 (by norm_num) (by norm_num)
  have hGpos : 0 < (Float64.ofInt 1000000000).num := by
    have hGdq : (0 : ℚ) < (Float64.ofInt 1000000000).den := by exact_mod_cast hGd
    have : (0 : ℚ) < (Float64.ofInt 1000000000).num := by
      have hv : (0 : ℚ) < (Float64.ofInt 1000000000).val := by
        rw [hGv]
        norm_num
      unfold Float64.val at hv
      rcases (div_pos_iff.1 hv) with ⟨h1, _⟩ | ⟨_, h2⟩
      · exact h1
      · linarith
    exact_mod_cast this
  have hnsq0 : (0 : ℚ) ≤ ((d % 10 ^ 9 : Int) : ℚ) := by exact_mod_cast hns0
  have hnsq1 : ((d % 10 ^ 9 : Int) : ℚ) ≤ 10 ^ 9 - 1 := by
    have : d % 10 ^ 9 ≤ 10 ^ 9 - 1 := by omega
    exact_mod_cast this
  have hquot : (Float64.ofInt (d % 10 ^ 9)).val / (Float64.ofInt 1000000000).val
      = ((d % 10 ^ 9 : Int) : ℚ) / 10 ^ 9 := by
    rw [hNv, hGv]
    norm_num
  have hquot1 : ((d % 10 ^ 9 : Int) : ℚ) / 10 ^ 9 ≤ 1 - 1 / 1000000000 := by
    rw [div_le_iff₀ (by norm_num)]
    norm_num at hnsq1 ⊢
    linarith
  obtain ⟨hY0, hYd, hYv⟩ := Float64.div_spec (Float64.ofInt (d % 10 ^ 9))
    (Float64.ofInt 1000000000) 0 hN0 hNd hGpos hGd (by rw [hquot]; norm_num at hquot1 ⊢; linarith)
  rw [hquot] at hYv
  have hYv2 := abs_le.1 hYv
  have hYlt : (Float64.div (Float64.ofInt (d % 10 ^ 9)) (Float64.ofInt 1000000000)).val < 1 := by
    have hε : (2 : ℚ) ^ 0 / 2 ^ 54 = 1 / 18014398509481984 := by norm_num
    have hup := hYv2.2
    rw [hε] at hup
    generalize ((d % 10 ^ 9 : Int) : ℚ) / 10 ^ 9 = q at hquot1 hup
    generalize (Float64.div (Float64.ofInt (d % 10 ^ 9)) (Float64.ofInt 1000000000)).val = y at hup ⊢
    have h1 : y ≤ q + 1 / 18014398509481984 := by linarith only [hup]
    have h2 : q + 1 / 18014398509481984 < 1 := by
      have : (1 : ℚ) - 1 / 1000000000 + 1 / 18014398509481984 < 1 := by norm_num
      linarith only [hquot1, this]
    exact lt_of_le_of_lt h1 h2
  have hsecq : ((d / 10 ^ 9 : Int) : ℚ) + 1 ≤ 2 ^ k := by
    have : d / 10 ^ 9 + 1 ≤ 2 ^ k := by omega
    exact_mod_cast this
  obtain ⟨hT0, hTd, hTv⟩ := Float64.add_spec (Float64.ofInt (d / 10 ^ 9))
    (Float64.div (Float64.ofInt (d % 10 ^ 9)) (Float64.ofInt 1000000000)) k hA0 hAd hY0 hYd
    (by rw [hAv]; linarith)
  have hdq : (d : ℚ) / 10 ^ 9 = ((d / 10 ^ 9 : Int) : ℚ) + ((d % 10 ^ 9 : Int) : ℚ) / 10 ^ 9 := by
    have : (d : ℚ) = ((d % 10 ^ 9 : Int) : ℚ) + 10 ^ 9 * ((d / 10 ^ 9 : Int) : ℚ) := by
      exact_mod_cast hsum.symm
    rw [this]
    field_simp
    ring
  unfold time.Duration.Seconds
  simp only [hsec_eq, hnsec_eq]
  refine ⟨hT0, hTd, ?_⟩
  rw [hAv] at hTv
  have hTv2 := abs_le.1 hTv
  rw [hdq, abs_le]
  constructor
  · have := hTv2.1
    have := hYv2.1
    have e : ((2 : ℚ) ^ k + 1) / 2 ^ 54 = 2 ^ k / 2 ^ 54 + 2 ^ 0 / 2 ^ 54 := by ring
    rw [e]
    linarith
  · have := hTv2.2
    have := hYv2.2
    have e : ((2 : ℚ) ^ k + 1) / 2 ^ 54 = 2 ^ k / 2 ^ 54 + 2 ^ 0 / 2 ^ 54 := by ring
    rw [e]
    linarith

theorem millionths_err (x : Float64) (h0 : 0 ≤ x.num) (hd : 0 < x.den) :
    |((fmt.millionths x : Nat) : ℚ) - x.val * 10 ^ 6| ≤ 1 / 2 := by
  have h := roundHalfEven_err (x.num.natAbs * 10 ^ 6) x.den hd
  have hnat : ((x.num.natAbs : Nat) : ℚ) = (x.num : ℚ) := by
    rw [Nat.cast_natAbs, abs_of_nonneg h0]
  have e : ((x.num.natAbs * 10 ^ 6 : Nat) : ℚ) / (x.den : ℚ) = x.val * 10 ^ 6 := by
    push_cast
    rw [hnat]
    unfold Float64.val
    ring
  rw [e] at h
  exact h

theorem Timer_value_close (d : Int) (k : Nat) (h0 : 0 ≤ d) (hk : k ≤ 34)
    (hd : d < 2 ^ k * 10 ^ 9) :
    |(((1000 * (fmt.millionths (time.Duration.Seconds d) : Int) - d : Int)) : ℚ)|
      ≤ 500 + 10 ^ 9 * (2 ^ k + 1) / 2 ^ 54 := by
  obtain ⟨hn0, hden, herr⟩ := Duration_Seconds_err d k h0 hk hd
  have hv := millionths_err (time.Duration.Seconds d) hn0 hden
  have a := abs_le.1 herr
  have b := abs_le.1 hv
  push_cast
  rw [abs_le]
  have e : (10 : ℚ) ^ 9 * (2 ^ k + 1) / 2 ^ 54 = 10 ^ 9 * ((2 ^ k + 1) / 2 ^ 54) := by ring
  have hdd : (d : ℚ) = (d : ℚ) / 10 ^ 9 * 10 ^ 9 := by field_simp
  rw [e]
  constructor
  · nlinarith [a.1, a.2, b.1, b.2]
  · nlinarith [a.1, a.2, b.1, b.2]

theorem Timer_value_int64 (d : Int) (h0 : 0 ≤ d) (hd : d < 2 ^ 63) :
    |1000 * (fmt.millionths (time.Duration.Seconds d) : Int) - d| ≤ 1453 := by
  have h := Timer_value_close d 34 h0 (le_refl _) (by norm_num at hd ⊢; omega)
  have hb : (500 : ℚ) + 10 ^ 9 * (2 ^ 34 + 1) / 2 ^ 54 < 1454 := by norm_num
  have hlt : |(((1000 * (fmt.millionths (time.Duration.Seconds d) : Int) - d : Int)) : ℚ)|
      < ((1454 : Int) : ℚ) := by
    push_cast at h ⊢
    exact lt_of_le_of_lt h hb
  rw [← Int.cast_abs, Int.cast_lt] at hlt
  omega

theorem Timer_value_nearest (d : Int) (h0 : 0 ≤ d) (hd : d < 2 ^ 24 * 10 ^ 9) :
    |1000 * (fmt.millionths (time.Duration.Seconds d) : Int) - d| ≤ 500 := by
  have h := Timer_value_close d 24 h0 (by decide) hd
  have hb : (500 : ℚ) + 10 ^ 9 * (2 ^ 24 + 1) / 2 ^ 54 < 501 := by norm_num
  have hlt : |(((1000 * (fmt.millionths (time.Duration.Seconds d) : Int) - d : Int)) : ℚ)|
      < ((501 : Int) : ℚ) := by
    push_cast at h ⊢
    exact lt_of_le_of_lt h hb
  rw [← Int.cast_abs, Int.cast_lt] at hlt
  omega

namespace meter

theorem Timer_value_exact (d : Int) (h0 : 0 ≤ d) (hd : d < 2 ^ 24 * 10 ^ 9)
    (hne : d % 1000 ≠ 500) :
    fmt.f (time.Duration.Seconds d) = fmt.secondsExact d.toNat := by
  have hb := Timer_value_nearest d h0 hd
  have hn : fmt.millionths (time.Duration.Seconds d) = roundHalfEven d.toNat 1000 := by
    generalize fmt.millionths (time.Duration.Seconds d) = n at hb
    obtain ⟨k, rfl⟩ := Int.eq_ofNat_of_zero_le h0
    rw [abs_le] at hb
    unfold roundHalfEven
    simp only [Int.toNat_ofNat]
    split_ifs <;> omega
  rw [fmt_f_shape _ (Duration_Seconds_nonneg d h0), hn]
  rfl

open writer in
/-- C8 (as amended): for a timer made by `NewTimer` on any writer, `Record(d)`
leaves the timer and its writer untouched when `d` is negative, and when
`d ≥ 0` (zero included) it passes to the writer's `Write`, once, the line `t:` +
wire identifier + `:` + `v`; on a `MemoryWriter` nothing is appended in the
first case and exactly that line in the second.  The value `v` is the `%f`
rendering of the `float64` that `d.Seconds()` returns: the decimal digits of a
whole part, a point and exactly six decimal digits, which together spell a
number `n` of millionths of a second.  That number is `d` converted to seconds
as far as `float64` allows: for every `int64` duration `1000 * n` is within
1453 nanoseconds of `d`; for durations below `2 ^ 24` seconds it is within 500,
and `v` is then `d` in seconds rounded to six places, unless `d` lies exactly
half a microsecond between two such values. -/
theorem Timer_Record_writes (σ : Type) [Writer σ] (id : Id) (w : σ) (mw : MemoryWriter)
    (d : Int) :
    (d < 0 →
      (NewTimer id w).Record d = NewTimer id w ∧
      ((NewTimer id mw).Record d).writer.Lines = mw.Lines) ∧
    (0 ≤ d →
      (NewTimer id w).Record d =
        { NewTimer id w with
          writer := Writer.Write w
            ("t:" ++ id.spectatordId ++ ":" ++ fmt.f (time.Duration.Seconds d)) } ∧
      ((NewTimer id mw).Record d).writer.Lines =
        mw.Lines ++ ["t:" ++ id.spectatordId ++ ":" ++ fmt.f (time.Duration.Seconds d)] ∧
      (∃ n : Nat,
        fmt.f (time.Duration.Seconds d) =
          Nat.repr (n / 10 ^ 6) ++ "." ++ String.mk (fmt.fractionDigits n) ∧
        (fmt.fractionDigits n).length = 6 ∧
        (∀ c ∈ (Nat.repr (n / 10 ^ 6)).data, c.isDigit = true) ∧
        (∀ c ∈ fmt.fractionDigits n, c.isDigit = true) ∧
        (d < 2 ^ 63 → |1000 * (n : Int) - d| ≤ 1453) ∧
        (d < 2 ^ 24 * 10 ^ 9 → |1000 * (n : Int) - d| ≤ 500)) ∧
      (d < 2 ^ 24 * 10 ^ 9 → d % 1000 ≠ 500 →
        fmt.f (time.Duration.Seconds d) = fmt.secondsExact d.toNat)) := by
  constructor
  · intro h
    have h2 : ¬ d ≥ 0 := not_le.2 h
    simp [Timer.Record, h2, NewTimer]
  · intro h
    have h2 : d ≥ 0 := h
    refine ⟨?_, ?_, ⟨fmt.millionths (time.Duration.Seconds d),
      fmt_f_shape _ (Duration_Seconds_nonneg d h), fractionDigits_length _, repr_isDigit _,
      fractionDigits_isDigit _, Timer_value_int64 d h, Timer_value_nearest d h⟩,
      Timer_value_exact d h⟩
    · simp [Timer.Record, h2, NewTimer, String.append_assoc]
    · simp [Timer.Record, h2, NewTimer, Writer.Write, MemoryWriter.Write, MemoryWriter.Lines,
        String.append_assoc]

open writer in
theorem Timer_Record_writes_witness :
    ((NewTimer (NewId "test_timer" []) (MemoryWriter.mk [])).Record 100000000).writer.Lines =
      ["t:test_timer:0.100000"] ∧
    ((NewTimer (NewId "test_timer" []) (MemoryWriter.mk [])).Record (-1)).writer.Lines = [] ∧
    ((NewTimer (NewId "test_timer" []) (MemoryWriter.mk [])).Record 0).writer.Lines =
      ["t:test_timer:0.000000"] :=
  ⟨((Timer_Record_writes NoopWriter (NewId "test_timer" []) {} (MemoryWriter.mk [])
      100000000).2 (by decide)).2.1.trans (by decide!),
    ((Timer_Record_writes NoopWriter (NewId "test_timer" []) {} (MemoryWriter.mk [])
      (-1)).1 (by decide)).2,
    ((Timer_Record_writes NoopWriter (NewId "test_timer" []) {} (MemoryWriter.mk [])
      0).2 (by decide)).2.1.trans (by decide!)⟩

open writer in
/-- C8 (as stated) fails: the duration of 9223372036854775000 nanoseconds is an
`int64` and a whole number of microseconds, so in seconds, to six places, it is
`9223372036.854775`; `Record` writes `t:test_timer:9223372036.854774`, the
last digit one less, because the `float64` nearest to that number of seconds
lies below it. -/
theorem Timer_Record_not_exact :
    (0 : Int) ≤ 9223372036854775000 ∧ (9223372036854775000 : Int) < 2 ^ 63 ∧
    (9223372036854775000 : Int) % 1000 = 0 ∧
    fmt.secondsExact 9223372036854775000 = "9223372036.854775" ∧
    ((NewTimer (NewId "test_timer" []) (MemoryWriter.mk [])).Record
      9223372036854775000).writer.Lines = ["t:test_timer:9223372036.854774"] ∧
    ((NewTimer (NewId "test_timer" []) (MemoryWriter.mk [])).Record
      9223372036854775000).writer.Lines ≠
      ["t:test_timer:" ++ fmt.secondsExact 9223372036854775000] := by
  refine ⟨by decide, by decide, by decide, by decide!, by decide!, by decide!⟩

end meter

namespace writer

/-- C13: for the four exact literals the factory returns a `nil` error and the
matching writer, whatever the buffer size: `none` a `NoopWriter`, `memory` a
`MemoryWriter` whose `Lines()` is empty, `stdout` a `StdoutWriter` and
`stderr` a `StderrWriter`. -/
theorem NewWriterWithBuffer_literals (logger : Logger) (n : Int) :
    NewWriterWithBuffer "none" logger n =
      (logger.Infof "Initializing NoopWriter", Returned.NoopWriter {}) ∧
    NewWriterWithBuffer "memory" logger n =
      (logger.Infof "Initializing MemoryWriter", Returned.MemoryWriter { lines := [] }) ∧
    (∀ m : MemoryWriter, (NewWriterWithBuffer "memory" logger n).2 = Returned.MemoryWriter m →
      m.Lines = []) ∧
    NewWriterWithBuffer "stdout" logger n =
      (logger.Infof "Initializing StdoutWriter", Returned.StdoutWriter {}) ∧
    NewWriterWithBuffer "stderr" logger n =
      (logger.Infof "Initializing StderrWriter", Returned.StderrWriter {}) ∧
    (∀ (s : String) (n2 : Int), s ∈ ["none", "memory", "stdout", "stderr"] →
      NewWriterWithBuffer s logger n = NewWriterWithBuffer s logger n2) := by
  refine ⟨rfl, rfl, ?_, rfl, rfl, ?_⟩
  · intro m hm
    have h : (NewWriterWithBuffer "memory" logger n).2 = Returned.MemoryWriter { lines := [] } :=
      rfl
    rw [h] at hm
    cases hm
    rfl
  · intro s n2 hs
    simp only [List.mem_cons, List.mem_singleton, List.not_mem_nil, or_false] at hs
    rcases hs with rfl | rfl | rfl | rfl <;> rfl

/-- C14: the bare descriptors are the fixed defaults.  `udp` returns what
`udp://127.0.0.1:1234` returns, the UDP constructor called with address
`127.0.0.1:1234` and the given buffer size; `unix` returns what
`unix:///run/spectatord/spectatord.unix` returns, the Unix datagram constructor
called with path `/run/spectatord/spectatord.unix` and the given buffer size. -/
theorem NewWriterWithBuffer_bare_defaults (logger : Logger) (n : Int) :
    NewWriterWithBuffer "udp" logger n = NewWriterWithBuffer "udp://127.0.0.1:1234" logger n ∧
    (NewWriterWithBuffer "udp" logger n).2 =
      Returned.NewUdpWriterWithBuffer "127.0.0.1:1234"
        (logger.Infof "Initializing UdpWriter with address udp://127.0.0.1:1234") n ∧
    NewWriterWithBuffer "unix" logger n =
      NewWriterWithBuffer "unix:///run/spectatord/spectatord.unix" logger n ∧
    (NewWriterWithBuffer "unix" logger n).2 =
      Returned.NewUnixgramWriterWithBuffer "/run/spectatord/spectatord.unix"
        (logger.Infof
          "Initializing UnixgramWriter with path unix:///run/spectatord/spectatord.unix") n := by
  refine ⟨rfl, ?_, rfl, ?_⟩
  · show Returned.NewUdpWriterWithBuffer (strings.TrimPrefix "udp://127.0.0.1:1234" "udp://") _ n
      = _
    have h : strings.TrimPrefix "udp://127.0.0.1:1234" "udp://" = "127.0.0.1:1234" := by decide
    rw [h]
    rfl
  · show Returned.NewUnixgramWriterWithBuffer
      (strings.TrimPrefix "unix:///run/spectatord/spectatord.unix" "unix://") _ n = _
    have h : strings.TrimPrefix "unix:///run/spectatord/spectatord.unix" "unix://"
        = "/run/spectatord/spectatord.unix" := by decide
    rw [h]
    rfl

end writer

namespace writer

theorem append_ne_of_data (pre p lit : String)
    (h : ¬ pre.data.isPrefixOf lit.data = true) : (pre ++ p == lit) = false := by
  rw [beq_eq_false_iff_ne]
  intro he
  apply h
  rw [List.isPrefixOf_iff_prefix]
  exact ⟨p.data, by rw [← String.data_append, he]⟩

theorem HasPrefix_append_false (pre p other : String)
    (h1 : ¬ pre.data.isPrefixOf other.data = true) (h2 : ¬ other.data.isPrefixOf pre.data = true) :
    strings.HasPrefix (pre ++ p) other = false := by
  rw [Bool.eq_false_iff]
  intro h
  unfold strings.HasPrefix at h
  rw [List.isPrefixOf_iff_prefix, String.data_append] at h
  rw [List.isPrefixOf_iff_prefix] at h1 h2
  rcases List.prefix_or_prefix_of_prefix h (List.prefix_append pre.data p.data) with h3 | h3
  · exact h2 h3
  · exact h1 h3

theorem prefixed_ne_literals (pre p : String)
    (h : ∀ lit ∈ ["none", "memory", "stdout", "stderr", "udp", "unix"],
      ¬ pre.data.isPrefixOf (String.data lit) = true) :
    (pre ++ p == "none") = false ∧ (pre ++ p == "memory") = false ∧
    (pre ++ p == "stdout") = false ∧ (pre ++ p == "stderr") = false ∧
    (pre ++ p == "udp") = false ∧ (pre ++ p == "unix") = false :=
  ⟨append_ne_of_data pre p _ (h _ (by simp)), append_ne_of_data pre p _ (h _ (by simp)),
    append_ne_of_data pre p _ (h _ (by simp)), append_ne_of_data pre p _ (h _ (by simp)),
    append_ne_of_data pre p _ (h _ (by simp)), append_ne_of_data pre p _ (h _ (by simp))⟩

/-- C15: for the prefix forms the factory hands to the constructor exactly the
text after the prefix, the prefix being removed once: `file://` + `p` gives the
file-writer constructor on path `p`, `udp://` + `p` the UDP constructor on
address `p` and the buffer size, `unix://` + `p` the Unix datagram constructor
on path `p` and the buffer size; so `file://file://x` gives the path
`file://x`. -/
theorem NewWriterWithBuffer_prefixes (p : String) (logger : Logger) (n : Int) :
    NewWriterWithBuffer ("file://" ++ p) logger n =
      (logger.Infof ("Initializing FileWriter with path " ++ ("file://" ++ p)),
        Returned.NewFileWriter p
          (logger.Infof ("Initializing FileWriter with path " ++ ("file://" ++ p)))) ∧
    NewWriterWithBuffer ("udp://" ++ p) logger n =
      (logger.Infof ("Initializing UdpWriter with address " ++ ("udp://" ++ p)),
        Returned.NewUdpWriterWithBuffer p
          (logger.Infof ("Initializing UdpWriter with address " ++ ("udp://" ++ p))) n) ∧
    NewWriterWithBuffer ("unix://" ++ p) logger n =
      (logger.Infof ("Initializing UnixgramWriter with path " ++ ("unix://" ++ p)),
        Returned.NewUnixgramWriterWithBuffer p
          (logger.Infof ("Initializing UnixgramWriter with path " ++ ("unix://" ++ p))) n) ∧
    (NewWriterWithBuffer "file://file://x" logger n).2 =
      Returned.NewFileWriter "file://x"
        (logger.Infof "Initializing FileWriter with path file://file://x") := by
  have hf : strings.HasPrefix ("file://" ++ p) "file://" = true :=
    (strings.HasPrefix_iff _ _).2 ⟨p, rfl⟩
  have hu : strings.HasPrefix ("udp://" ++ p) "udp://" = true :=
    (strings.HasPrefix_iff _ _).2 ⟨p, rfl⟩
  have hx : strings.HasPrefix ("unix://" ++ p) "unix://" = true :=
    (strings.HasPrefix_iff _ _).2 ⟨p, rfl⟩
  refine ⟨?_, ?_, ?_, ?_⟩
  · obtain ⟨a1, a2, a3, a4, a5, a6⟩ := prefixed_ne_literals "file://" p (by decide)
    unfold NewWriterWithBuffer
    simp only [a1, a2, a3, a4, a5, a6, hf,
      strings.TrimPrefix_append, Bool.false_eq_true, if_false, if_true]
  · obtain ⟨a1, a2, a3, a4, a5, a6⟩ := prefixed_ne_literals "udp://" p (by decide)
    unfold NewWriterWithBuffer
    simp only [a1, a2, a3, a4, a5, a6, hu,
      HasPrefix_append_false "udp://" p "file://" (by decide) (by decide),
      strings.TrimPrefix_append, Bool.false_eq_true, if_false, if_true]
  · obtain ⟨a1, a2, a3, a4, a5, a6⟩ := prefixed_ne_literals "unix://" p (by decide)
    unfold NewWriterWithBuffer
    simp only [a1, a2, a3, a4, a5, a6, hx,
      HasPrefix_append_false "unix://" p "file://" (by decide) (by decide),
      HasPrefix_append_false "unix://" p "udp://" (by decide) (by decide),
      strings.TrimPrefix_append, Bool.false_eq_true, if_false, if_true]
  · show Returned.NewFileWriter (strings.TrimPrefix "file://file://x" "file://") _ = _
    have h : strings.TrimPrefix "file://file://x" "file://" = "file://x" := by decide
    rw [h]
    rfl

end writer

namespace meter

open writer in
/-- C16: for a counter made by `NewCounter` on any writer, `Increment()` passes
to the writer's `Write`, once and unconditionally, the line `c:` + wire
identifier + `:1`, which is what `Add(1)` does; on a `MemoryWriter` exactly
that line is appended, and a counter named `test_counter` without tags writes
`c:test_counter:1`. -/
theorem Counter_Increment_writes (σ : Type) [Writer σ] (id : Id) (w : σ) (mw : MemoryWriter) :
    (NewCounter id w).Increment =
      { NewCounter id w with writer := Writer.Write w ("c:" ++ id.spectatordId ++ ":1") } ∧
    (NewCounter id w).Increment = (NewCounter id w).Add 1 ∧
    ((NewCounter id mw).Increment).writer.Lines = mw.Lines ++ ["c:" ++ id.spectatordId ++ ":1"] ∧
    ((NewCounter (NewId "test_counter" []) (MemoryWriter.mk [])).Increment).writer.Lines =
      ["c:test_counter:1"] := by
  have h1 : fmt.d 1 = "1" := by decide
  refine ⟨?_, ?_, ?_, by decide⟩
  · simp [Counter.Increment, NewCounter, h1, String.append_assoc]
  · simp [Counter.Increment, Counter.Add]
  · simp [Counter.Increment, NewCounter, h1, Writer.Write, MemoryWriter.Write,
      MemoryWriter.Lines, String.append_assoc]

/-- C18: `MapKey()` is cached and idempotent.  A second call returns the same
string as the first and leaves the identity as the first call left it; an
identity whose cached key is a non-empty string returns that key, without
computing one from the name and the tags, and is left unchanged; so the
identity with name `foo` and cached key `bar` has the key `bar`. -/
theorem MapKey_cached (id : Id) :
    id.MapKey.2.MapKey.1 = id.MapKey.1 ∧
    id.MapKey.2.MapKey.2 = id.MapKey.2 ∧
    (0 < id.key.length → id.MapKey = (id.key, id)) ∧
    (Id.mk "foo" [] "bar" "").MapKey.1 = "bar" := by
  refine ⟨?_, ?_, ?_, by decide⟩
  · unfold Id.MapKey
    split_ifs with h1 h2 <;> simp_all
  · unfold Id.MapKey
    split_ifs with h1 h2 <;> simp_all
  · intro h
    unfold Id.MapKey
    rw [if_pos h]

theorem MapKey_cached_witness :
    0 < (Id.mk "foo" [] "bar" "").key.length ∧
    (Id.mk "foo" [] "bar" "").MapKey = ("bar", Id.mk "foo" [] "bar" "") :=
  ⟨by decide, (MapKey_cached (Id.mk "foo" [] "bar" "")).2.2.1 (by decide)⟩

end meter

/-! ## The shape of protocol lines -/

theorem three_fields (sep : Char) (a b c : String)
    (ha : sep ∉ a.data) (hb : sep ∉ b.data) (hc : sep ∉ c.data) :
    (a ++ String.singleton sep ++ b ++ String.singleton sep ++ c).data.count sep = 2 ∧
    (splitAt sep (a ++ String.singleton sep ++ b ++ String.singleton sep ++ c).data).map
      String.mk = [a, b, c] := by
  have hd : (a ++ String.singleton sep ++ b ++ String.singleton sep ++ c).data
      = a.data ++ sep :: (b.data ++ sep :: c.data) := by
    simp [String.data_append, String.singleton]
  rw [hd]
  constructor
  · simp [List.count_append, List.count_cons, List.count_eq_zero.2 ha,
      List.count_eq_zero.2 hb, List.count_eq_zero.2 hc]
  · rw [splitAt_append_sep _ _ _ ha, splitAt_append_sep _ _ _ hb, splitAt_of_not_mem _ _ hc]
    rfl

theorem colon_not_digit (c : Char) (h : c.isDigit = true) : c ≠ ':' := by
  intro e
  subst e
  revert h
  decide

theorem fmt_d_no_colon (n : Int) : ':' ∉ (fmt.d n).data := by
  unfold fmt.d
  intro h
  split_ifs at h
  · rw [String.data_append, List.mem_append] at h
    rcases h with h | h
    · revert h
      decide
    · exact colon_not_digit _ (repr_isDigit _ _ h) rfl
  · exact colon_not_digit _ (repr_isDigit _ _ h) rfl

theorem fmt_f_no_colon (x : Float64) : ':' ∉ (fmt.f x).data := by
  have hbody : ':' ∉ (Nat.repr (fmt.millionths x / 10 ^ 6) ++ "." ++
      String.mk (fmt.fractionDigits (fmt.millionths x))).data := by
    intro h
    simp only [String.data_append, List.mem_append] at h
    rcases h with (h | h) | h
    · exact colon_not_digit _ (repr_isDigit _ _ h) rfl
    · revert h
      decide
    · exact colon_not_digit _ (fractionDigits_isDigit _ _ h) rfl
  unfold fmt.f
  simp only
  intro h
  split_ifs at h
  · rw [String.data_append, List.mem_append] at h
    rcases h with h | h
    · revert h
      decide
    · exact hbody h
  · exact hbody h

namespace meter

theorem toSpectatorId_no_colon (name : String) (tags : Tags) :
    ':' ∉ (toSpectatorId name tags).data := by
  rw [← List.count_eq_zero]
  unfold toSpectatorId
  rw [String.data_append, List.count_append, wireTail_count ':' (by decide),
    List.count_eq_zero.2 (sanitized_not_mem name ':' (by decide))]
  simp

open writer in
/-- C19: every line a counter or a timer writes has exactly two `:`.  For an
identity whose wire identifier is the output of `toSpectatorId` (on any name
and tags, a `:` in them included), for `delta > 0` and a duration `d ≥ 0`, the
lines written by `Add(delta)`, `Increment()` and `Record(d)` hold exactly two
`:`, and splitting each at `:` gives exactly the kind symbol, the wire
identifier and the value. -/
theorem lines_have_two_colons (id : Id) (name : String) (tags : Tags) (mw : MemoryWriter)
    (delta d : Int) (hid : id.spectatordId = toSpectatorId name tags)
    (hdelta : 0 < delta) (hd : 0 ≤ d) :
    ∃ la li lr : String,
      ((NewCounter id mw).Add delta).writer.Lines = mw.Lines ++ [la] ∧
      ((NewCounter id mw).Increment).writer.Lines = mw.Lines ++ [li] ∧
      ((NewTimer id mw).Record d).writer.Lines = mw.Lines ++ [lr] ∧
      la.data.count ':' = 2 ∧ li.data.count ':' = 2 ∧ lr.data.count ':' = 2 ∧
      (splitAt ':' la.data).map String.mk = ["c", id.spectatordId, fmt.d delta] ∧
      (splitAt ':' li.data).map String.mk = ["c", id.spectatordId, "1"] ∧
      (splitAt ':' lr.data).map String.mk =
        ["t", id.spectatordId, fmt.f (time.Duration.Seconds d)] := by
  have hw : ':' ∉ id.spectatordId.data := by
    rw [hid]
    exact toSpectatorId_no_colon name tags
  have hc : ':' ∉ ("c" : String).data := by decide
  have ht : ':' ∉ ("t" : String).data := by decide
  have h1 : fmt.d 1 = "1" := by decide
  have e : String.singleton ':' = ":" := rfl
  obtain ⟨a1, a2⟩ := three_fields ':' "c" id.spectatordId (fmt.d delta) hc hw (fmt_d_no_colon _)
  obtain ⟨i1, i2⟩ := three_fields ':' "c" id.spectatordId (fmt.d 1) hc hw (fmt_d_no_colon _)
  obtain ⟨r1, r2⟩ := three_fields ':' "t" id.spectatordId (fmt.f (time.Duration.Seconds d))
    ht hw (fmt_f_no_colon _)
  rw [e] at a1 a2 i1 i2 r1 r2
  rw [h1] at i2
  refine ⟨_, _, _, ?_, ?_, ?_, a1, i1, r1, a2, i2, r2⟩
  · have h2 : delta > 0 := hdelta
    simp [Counter.Add, h2, NewCounter, Writer.Write, MemoryWriter.Write, MemoryWriter.Lines]
  · simp [Counter.Increment, NewCounter, Writer.Write, MemoryWriter.Write, MemoryWriter.Lines]
  · have h2 : d ≥ 0 := hd
    simp [Timer.Record, h2, NewTimer, Writer.Write, MemoryWriter.Write, MemoryWriter.Lines]

open writer in
theorem lines_have_two_colons_witness :
    (NewId "a:b" [("k:1", "v:2")]).spectatordId = toSpectatorId "a:b" [("k:1", "v:2")] ∧
    (0 : Int) < 5 ∧ (0 : Int) ≤ 100000000 ∧
    ∃ la li lr : String,
      ((NewCounter (NewId "a:b" [("k:1", "v:2")]) (MemoryWriter.mk [])).Add 5).writer.Lines
        = (MemoryWriter.mk []).Lines ++ [la] ∧
      ((NewCounter (NewId "a:b" [("k:1", "v:2")]) (MemoryWriter.mk [])).Increment).writer.Lines
        = (MemoryWriter.mk []).Lines ++ [li] ∧
      ((NewTimer (NewId "a:b" [("k:1", "v:2")]) (MemoryWriter.mk [])).Record
        100000000).writer.Lines = (MemoryWriter.mk []).Lines ++ [lr] ∧
      la.data.count ':' = 2 ∧ li.data.count ':' = 2 ∧ lr.data.count ':' = 2 ∧
      (splitAt ':' la.data).map String.mk =
        ["c", (NewId "a:b" [("k:1", "v:2")]).spectatordId, fmt.d 5] ∧
      (splitAt ':' li.data).map String.mk =
        ["c", (NewId "a:b" [("k:1", "v:2")]).spectatordId, "1"] ∧
      (splitAt ':' lr.data).map String.mk =
        ["t", (NewId "a:b" [("k:1", "v:2")]).spectatordId,
          fmt.f (time.Duration.Seconds 100000000)] :=
  ⟨rfl, by decide, by decide,
    lines_have_two_colons (NewId "a:b" [("k:1", "v:2")]) "a:b" [("k:1", "v:2")]
      (MemoryWriter.mk []) 5 100000000 rfl (by decide) (by decide)⟩

end meter

namespace meter

/-- The pieces of an internal key: for each entry its key and its value. -/
theorem keyTail_cons (kv : String × String) (rest : Tags) :
    (String.join ((kv :: rest).map fun kv => "|" ++ kv.1 ++ "|" ++ kv.2)).data
      = '|' :: (kv.1.data ++ '|' :: (kv.2.data ++
        (String.join (rest.map fun kv => "|" ++ kv.1 ++ "|" ++ kv.2)).data)) := by
  rw [List.map_cons, String_join_cons]
  simp [String.data_append]

theorem keyTail_split (es : Tags) (a : List Char) (ha : '|' ∉ a)
    (hes : ∀ kv ∈ es, '|' ∉ kv.1.data ∧ '|' ∉ kv.2.data) :
    splitAt '|' (a ++ (String.join (es.map fun kv => "|" ++ kv.1 ++ "|" ++ kv.2)).data)
      = a :: es.flatMap (fun kv => [kv.1.data, kv.2.data]) := by
  induction es generalizing a with
  | nil => simp [String_join_nil, splitAt_of_not_mem _ _ ha]
  | cons kv rest ih =>
    have hkv := hes kv (List.mem_cons_self _ _)
    have hrest : ∀ e ∈ rest, '|' ∉ e.1.data ∧ '|' ∉ e.2.data :=
      fun e he => hes e (List.mem_cons_of_mem _ he)
    rw [keyTail_cons, splitAt_append_sep _ _ _ ha, splitAt_append_sep _ _ _ hkv.1,
      ih _ hkv.2 hrest]
    simp [List.flatMap_cons]

theorem pieces_injective : ∀ (es1 es2 : Tags),
    es1.flatMap (fun kv => [kv.1.data, kv.2.data]) =
      es2.flatMap (fun kv => [kv.1.data, kv.2.data]) → es1 = es2
  | [], [], _ => rfl
  | [], _ :: _, h => by simp [List.flatMap_cons] at h
  | _ :: _, [], h => by simp [List.flatMap_cons] at h
  | (k1, v1) :: r1, (k2, v2) :: r2, h => by
    simp only [List.flatMap_cons, List.cons_append, List.nil_append, List.cons.injEq] at h
    obtain ⟨hk, hv, hr⟩ := h
    rw [String.ext hk, String.ext hv, pieces_injective r1 r2 hr]

/-- C20: the internal key separates identities that do not use the delimiter.
When neither the names nor any tag key or tag value contain `|`, two
identities built by `NewId` with equal internal keys have the same name and
the same tags as maps: the same entries, hence the same value, or none, under
every key. -/
theorem MapKey_injective (n1 n2 : String) (t1 t2 : Tags)
    (w1 : t1.WellFormed) (w2 : t2.WellFormed)
    (hn1 : '|' ∉ n1.data) (hn2 : '|' ∉ n2.data)
    (ht1 : ∀ kv ∈ t1, '|' ∉ kv.1.data ∧ '|' ∉ kv.2.data)
    (ht2 : ∀ kv ∈ t2, '|' ∉ kv.1.data ∧ '|' ∉ kv.2.data)
    (h : (NewId n1 t1).MapKey.1 = (NewId n2 t2).MapKey.1) :
    n1 = n2 ∧ t1.Perm t2 ∧ (∀ kv : String × String, kv ∈ t1 ↔ kv ∈ t2) ∧
    (∀ k : String, t1.index k = t2.index k) := by
  have p1 := Tags.sortedEntries_perm w1
  have p2 := Tags.sortedEntries_perm w2
  have hs1 : ∀ kv ∈ t1.sortedEntries, '|' ∉ kv.1.data ∧ '|' ∉ kv.2.data :=
    fun kv hkv => ht1 kv (p1.subset hkv)
  have hs2 : ∀ kv ∈ t2.sortedEntries, '|' ∉ kv.1.data ∧ '|' ∉ kv.2.data :=
    fun kv hkv => ht2 kv (p2.subset hkv)
  rw [MapKey_NewId, MapKey_NewId] at h
  have hd := congrArg (fun s : String => splitAt '|' s.data) h
  simp only [String.data_append] at hd
  rw [keyTail_split _ _ hn1 hs1, keyTail_split _ _ hn2 hs2] at hd
  simp only [List.cons.injEq] at hd
  obtain ⟨hname, hpieces⟩ := hd
  have hes : t1.sortedEntries = t2.sortedEntries := pieces_injective _ _ hpieces
  have hperm : t1.Perm t2 := (p1.symm.trans (hes ▸ List.Perm.refl _)).trans p2
  refine ⟨String.ext hname, hperm, fun kv => hperm.mem_iff, ?_⟩
  intro k
  by_cases hk : k ∈ t2.map Prod.fst
  · exact Tags.index_perm w2 hperm hk
  · have hk1 : k ∉ t1.map Prod.fst := fun hin => hk ((hperm.map Prod.fst).subset hin)
    have l1 : t1.lookup k = none := by
      rw [List.lookup_eq_none_iff]
      intro e he
      rw [bne_iff_ne]
      intro hbeq
      exact hk1 (List.mem_map.2 ⟨e, he, hbeq.symm⟩)
    have l2 : t2.lookup k = none := by
      rw [List.lookup_eq_none_iff]
      intro e he
      rw [bne_iff_ne]
      intro hbeq
      exact hk (List.mem_map.2 ⟨e, he, hbeq.symm⟩)
    simp [Tags.index, l1, l2]

theorem MapKey_injective_witness :
    Tags.WellFormed [("b", "2"), ("a", "1")] ∧ Tags.WellFormed [("a", "1"), ("b", "2")] ∧
    (NewId "foo" [("b", "2"), ("a", "1")]).MapKey.1 =
      (NewId "foo" [("a", "1"), ("b", "2")]).MapKey.1 ∧
    ("foo" = "foo" ∧ List.Perm [("b", "2"), ("a", "1")] [("a", "1"), ("b", "2")] ∧
      (∀ kv : String × String,
        kv ∈ [("b", "2"), ("a", "1")] ↔ kv ∈ [("a", "1"), ("b", "2")]) ∧
      (∀ k : String,
        Tags.index [("b", "2"), ("a", "1")] k = Tags.index [("a", "1"), ("b", "2")] k)) :=
  ⟨by decide, by decide, by decide,
    MapKey_injective "foo" "foo" [("b", "2"), ("a", "1")] [("a", "1"), ("b", "2")]
      (by decide) (by decide) (by decide) (by decide) (by decide) (by decide) (by decide)⟩

end meter

namespace meter

/-! ## Assignments to a map -/

theorem Tags.lookup_cons_eq (a b q : String) (es : Tags) :
    List.lookup q ((a, b) :: es) = if q = a then some b else List.lookup q es := by
  by_cases hq : q = a
  · subst hq
    simp [List.lookup]
  · have hb : (q == a) = false := by simpa using hq
    simp [List.lookup, hb, hq]

theorem Tags.keys_map_assign (tags : Tags) (k v : String) :
    (tags.map (fun e => if e.1 == k then (e.1, v) else e)).map Prod.fst = tags.map Prod.fst := by
  rw [List.map_map]
  apply List.map_congr_left
  intro e _
  show (if e.1 == k then (e.1, v) else e).1 = e.1
  by_cases h : e.1 = k
  · simp [h]
  · simp [h]

theorem Tags.any_key_iff (tags : Tags) (k : String) :
    tags.any (fun e => e.1 == k) = true ↔ k ∈ tags.map Prod.fst := by
  simp only [List.any_eq_true, beq_iff_eq, List.mem_map]

theorem Tags.assign_wellFormed (tags : Tags) (k v : String) (h : tags.WellFormed) :
    (tags.assign k v).WellFormed := by
  unfold Tags.assign Tags.WellFormed
  split_ifs with hk
  · rw [Tags.keys_map_assign]
    exact h
  · rw [List.map_append, List.map_cons, List.map_nil]
    have hk2 : k ∉ tags.map Prod.fst := fun hin => hk ((Tags.any_key_iff tags k).2 hin)
    exact List.Nodup.append h (List.nodup_singleton k)
      (List.disjoint_singleton.2 hk2)

theorem Tags.lookup_map_assign (tags : Tags) (k v q : String) :
    (tags.map (fun e => if e.1 == k then (e.1, v) else e)).lookup q =
      if q = k then (tags.lookup k).map (fun _ => v) else tags.lookup q := by
  induction tags with
  | nil => simp
  | cons e es ih =>
    obtain ⟨a, b⟩ := e
    rw [List.map_cons]
    by_cases hak : a = k
    · have hhead : (if ((a, b) : String × String).1 == k then (((a, b) : String × String).1, v)
          else (a, b)) = (a, v) := by simp [hak]
      rw [hhead]
      simp only [Tags.lookup_cons_eq, ih]
      subst hak
      by_cases hq : q = a
      · subst hq
        simp
      · simp [hq]
    · have hhead : (if ((a, b) : String × String).1 == k then (((a, b) : String × String).1, v)
          else (a, b)) = (a, b) := by simp [hak]
      rw [hhead]
      simp only [Tags.lookup_cons_eq, ih]
      by_cases hq : q = a
      · subst hq
        simp [hak]
      · by_cases hqk : q = k
        · subst hqk
          simp [hq, Ne.symm hak]
        · simp [hq, hqk]

theorem Tags.lookup_append_single (tags : Tags) (k v q : String) :
    (tags ++ [(k, v)]).lookup q =
      (tags.lookup q).or (if q = k then some v else none) := by
  induction tags with
  | nil =>
    rw [List.nil_append, Tags.lookup_cons_eq]
    by_cases hq : q = k <;> simp [hq]
  | cons e es ih =>
    obtain ⟨a, b⟩ := e
    rw [List.cons_append, Tags.lookup_cons_eq, Tags.lookup_cons_eq, ih]
    by_cases hq : q = a <;> simp [hq]

theorem Tags.lookup_eq_none_of_not_key (tags : Tags) (k : String)
    (h : k ∉ tags.map Prod.fst) : tags.lookup k = none := by
  rw [List.lookup_eq_none_iff]
  intro e he
  rw [bne_iff_ne]
  intro hk
  exact h (List.mem_map.2 ⟨e, he, hk.symm⟩)

theorem Tags.lookup_isSome_of_key (tags : Tags) (k : String)
    (h : k ∈ tags.map Prod.fst) : ∃ v, tags.lookup k = some v := by
  induction tags with
  | nil => simp at h
  | cons e es ih =>
    obtain ⟨a, b⟩ := e
    by_cases hk : k = a
    · subst hk
      exact ⟨b, by simp [List.lookup]⟩
    · have hb : (k == a) = false := by simpa using hk
      simp only [List.map_cons, List.mem_cons] at h
      rcases h with h | h
      · exact absurd h hk
      · obtain ⟨v, hv⟩ := ih h
        exact ⟨v, by simp [List.lookup, hb, hv]⟩

theorem Tags.lookup_assign (tags : Tags) (k v q : String) :
    (tags.assign k v).lookup q = if q = k then some v else tags.lookup q := by
  unfold Tags.assign
  split_ifs with hk hq hq
  · obtain ⟨w, hw⟩ := Tags.lookup_isSome_of_key tags k ((Tags.any_key_iff tags k).1 hk)
    rw [Tags.lookup_map_assign, if_pos hq, hw]
    rfl
  · rw [Tags.lookup_map_assign, if_neg hq]
  · have hn := Tags.lookup_eq_none_of_not_key tags k
      (fun hin => hk ((Tags.any_key_iff tags k).2 hin))
    subst hq
    rw [Tags.lookup_append_single, hn]
    simp
  · rw [Tags.lookup_append_single, if_neg hq]
    cases tags.lookup q <;> rfl

theorem Tags.copyInto_wellFormed (dst src : Tags) (h : dst.WellFormed) :
    (Tags.copyInto dst src).WellFormed := by
  unfold Tags.copyInto
  induction src generalizing dst with
  | nil => exact h
  | cons e es ih => exact ih _ (Tags.assign_wellFormed dst e.1 e.2 h)

theorem Tags.lookup_copyInto (dst src : Tags) (h : src.WellFormed) (q : String) :
    (Tags.copyInto dst src).lookup q = (src.lookup q).or (dst.lookup q) := by
  unfold Tags.copyInto
  induction src generalizing dst with
  | nil => simp
  | cons e es ih =>
    obtain ⟨a, b⟩ := e
    unfold Tags.WellFormed at h
    simp only [List.map_cons, List.nodup_cons] at h
    rw [List.foldl_cons, ih _ h.2, Tags.lookup_assign]
    by_cases hq : q = a
    · subst hq
      rw [Tags.lookup_eq_none_of_not_key es q h.1]
      simp [List.lookup]
    · have hb : (q == a) = false := by simpa using hq
      simp [List.lookup, hb, hq]

theorem Tags.copyInto_append (dst src : Tags) (h : (dst ++ src).WellFormed) :
    Tags.copyInto dst src = dst ++ src := by
  unfold Tags.copyInto
  induction src generalizing dst with
  | nil => simp
  | cons e es ih =>
    obtain ⟨a, b⟩ := e
    have hna : ¬ dst.any (fun e => e.1 == a) = true := by
      intro hin
      have hk := (Tags.any_key_iff dst a).1 hin
      unfold Tags.WellFormed at h
      rw [List.map_append, List.map_cons] at h
      exact (List.nodup_append.1 h).2.2 hk (List.mem_cons_self _ _)
    have e1 : dst.assign a b = dst ++ [(a, b)] := by
      unfold Tags.assign
      rw [if_neg hna]
    rw [List.foldl_cons, e1, ih]
    · simp
    · simpa using h

theorem Tags.copyInto_nil (src : Tags) (h : src.WellFormed) : Tags.copyInto [] src = src := by
  have := Tags.copyInto_append [] src (by simpa using h)
  simpa using this

end meter

namespace meter

/-! ## Maps in the heap -/

theorem MapHeap.length_update (h : MapHeap) (r : Nat) (u : MapUpdate) :
    (h.update r u).maps.length = h.maps.length := by
  simp [MapHeap.update]

theorem MapHeap.load_update (h : MapHeap) (r q : Nat) (u : MapUpdate) (hr : r < h.maps.length) :
    (h.update r u).load q = if q = r then (h.load r).update u else h.load q := by
  unfold MapHeap.update MapHeap.load
  simp only [List.getD_eq_getElem?_getD, List.getElem?_set]
  by_cases hq : q = r
  · subst hq
    simp [hr]
  · have hq2 : ¬ r = q := fun e => hq e.symm
    simp [hq, hq2]

theorem MapHeap.load_make (h : MapHeap) (q : Nat) : h.make.1.load q = h.load q := by
  unfold MapHeap.make MapHeap.load
  simp only [List.getD_eq_getElem?_getD]
  by_cases hq : q < h.maps.length
  · rw [List.getElem?_append_left hq]
  · have hq2 : h.maps.length ≤ q := Nat.le_of_not_lt hq
    rw [List.getElem?_append_right hq2, List.getElem?_eq_none_iff.2 hq2]
    by_cases hz : q - h.maps.length = 0
    · simp [hz]
    · have : [([] : Tags)].length ≤ q - h.maps.length := by
        simp only [List.length_singleton]
        omega
      rw [List.getElem?_eq_none_iff.2 this]

theorem MapHeap.updates_spec (us : List MapUpdate) (h : MapHeap) (r : Nat)
    (hr : r < h.maps.length) :
    (us.foldl (fun h u => h.update r u) h).maps.length = h.maps.length ∧
    ∀ q, (us.foldl (fun h u => h.update r u) h).load q =
      if q = r then us.foldl Tags.update (h.load r) else h.load q := by
  induction us generalizing h with
  | nil =>
    refine ⟨rfl, fun q => ?_⟩
    by_cases e : q = r
    · simp [e]
    · simp [e]
  | cons u us ih =>
    have hr2 : r < (h.update r u).maps.length := by
      rw [MapHeap.length_update]
      exact hr
    obtain ⟨hl, hq⟩ := ih (h.update r u) hr2
    refine ⟨by rw [List.foldl_cons, hl, MapHeap.length_update], ?_⟩
    intro q
    rw [List.foldl_cons, hq q, MapHeap.load_update h r r u hr, if_pos rfl]
    by_cases e : q = r
    · simp [e]
    · simp [e, MapHeap.load_update h r q u hr]

theorem MapHeap.copyInto_spec (h : MapHeap) (dst src : Nat) (hd : dst < h.maps.length) :
    (h.copyInto dst src).maps.length = h.maps.length ∧
    ∀ q, (h.copyInto dst src).load q =
      if q = dst then Tags.copyInto (h.load dst) (h.load src) else h.load q := by
  have hs := MapHeap.updates_spec ((h.load src).map fun kv => MapUpdate.assign kv.1 kv.2) h dst hd
  have e1 : h.copyInto dst src =
      ((h.load src).map fun kv => MapUpdate.assign kv.1 kv.2).foldl
        (fun h u => h.update dst u) h := by
    unfold MapHeap.copyInto
    rw [List.foldl_map]
  have e2 : Tags.copyInto (h.load dst) (h.load src) =
      ((h.load src).map fun kv => MapUpdate.assign kv.1 kv.2).foldl Tags.update (h.load dst) := by
    unfold Tags.copyInto
    rw [List.foldl_map]
    rfl
  rw [e1, e2]
  exact hs

theorem heap.NewId_spec (h : MapHeap) (name : String) (tags : Nat)
    (hw : (h.load tags).WellFormed) :
    (heap.NewId h name tags).2.tags = h.maps.length ∧
    (heap.NewId h name tags).1.maps.length = h.maps.length + 1 ∧
    (∀ q, q ≠ h.maps.length → (heap.NewId h name tags).1.load q = h.load q) ∧
    (heap.NewId h name tags).2.value (heap.NewId h name tags).1 =
      meter.NewId name (h.load tags) := by
  have hlen : h.make.1.maps.length = h.maps.length + 1 := by simp [MapHeap.make]
  have hfresh : h.make.2 = h.maps.length := rfl
  have hd : h.make.2 < h.make.1.maps.length := by
    rw [hlen, hfresh]
    exact Nat.lt_succ_self _
  obtain ⟨cl, cq⟩ := MapHeap.copyInto_spec h.make.1 h.make.2 tags hd
  have hnew : (h.make.1.copyInto h.make.2 tags).load h.make.2 = h.load tags := by
    rw [cq, if_pos rfl, MapHeap.load_make, MapHeap.load_make]
    have he : h.load h.make.2 = [] := by
      rw [hfresh]
      unfold MapHeap.load
      rw [List.getD_eq_getElem?_getD, List.getElem?_eq_none_iff.2 (le_refl _)]
      rfl
    rw [he, Tags.copyInto_nil _ hw]
  refine ⟨rfl, ?_, ?_, ?_⟩
  · show (h.make.1.copyInto h.make.2 tags).maps.length = _
    rw [cl, hlen]
  · intro q hq
    show (h.make.1.copyInto h.make.2 tags).load q = _
    rw [cq, if_neg (by rw [hfresh]; exact hq), MapHeap.load_make]
  · have e : (heap.NewId h name tags).2.value (heap.NewId h name tags).1 =
        meter.Id.mk name ((h.make.1.copyInto h.make.2 tags).load h.make.2) ""
          (toSpectatorId name (h.load tags)) := rfl
    rw [e, hnew]
    rfl

end meter

namespace meter

/-- C12: `NewId` copies its tags.  With the caller's map at address `tags` in the
heap, the identity returned by `NewId(name, tags)` has the name `name` and tags
equal to the caller's, the call leaves the caller's map as it was, and whatever
assignments and deletions the caller makes on its map afterwards (they do
change that map), `Tags()`, `MapKey()` and the wire identifier of the identity
stay what they were. -/
theorem NewId_copies_tags (h : MapHeap) (name : String) (tags : Nat) (us : List MapUpdate)
    (h1 : MapHeap) (id : heap.Id)
    (hr : tags < h.maps.length) (hw : (h.load tags).WellFormed)
    (hnew : heap.NewId h name tags = (h1, id)) :
    (id.value h1).Name = name ∧
    (id.value h1).Tags = h.load tags ∧
    h1.load tags = h.load tags ∧
    (us.foldl (fun h u => h.update tags u) h1).load tags = us.foldl Tags.update (h.load tags) ∧
    (id.value (us.foldl (fun h u => h.update tags u) h1)).Tags = (id.value h1).Tags ∧
    (id.value (us.foldl (fun h u => h.update tags u) h1)).MapKey.1 = (id.value h1).MapKey.1 ∧
    (id.value (us.foldl (fun h u => h.update tags u) h1)).spectatordId =
      (id.value h1).spectatordId ∧
    id.value (us.foldl (fun h u => h.update tags u) h1) = meter.NewId name (h.load tags) := by
  obtain ⟨s1, s2, s3, s4⟩ := heap.NewId_spec h name tags hw
  rw [hnew] at s1 s2 s3 s4
  simp only at s1 s2 s3 s4
  have hne : tags ≠ h.maps.length := Nat.ne_of_lt hr
  have hr1 : tags < h1.maps.length := by omega
  obtain ⟨_, uq⟩ := MapHeap.updates_spec us h1 tags hr1
  have hcaller : h1.load tags = h.load tags := s3 tags hne
  have hfix : id.value (us.foldl (fun h u => h.update tags u) h1) = id.value h1 := by
    unfold heap.Id.value
    rw [uq id.tags, if_neg (by rw [s1]; exact fun e => hne e.symm)]
  refine ⟨?_, ?_, hcaller, ?_, ?_, ?_, ?_, ?_⟩
  · rw [s4]
    rfl
  · rw [s4]
    rfl
  · rw [uq tags, if_pos rfl, hcaller]
  · rw [hfix]
  · rw [hfix]
  · rw [hfix]
  · rw [hfix, s4]

theorem NewId_copies_tags_witness :
    (0 < (MapHeap.mk [[("foo", "abc"), ("bar", "def")]]).maps.length ∧
      ((MapHeap.mk [[("foo", "abc"), ("bar", "def")]]).load 0).WellFormed) ∧
    ((heap.NewId (MapHeap.mk [[("foo", "abc"), ("bar", "def")]]) "foo" 0).2.value
      ((heap.NewId (MapHeap.mk [[("foo", "abc"), ("bar", "def")]]) "foo" 0).1.update 0
        (MapUpdate.assign "foo" "zzz"))).Tags.index "foo" = "abc" ∧
    (((heap.NewId (MapHeap.mk [[("foo", "abc"), ("bar", "def")]]) "foo" 0).1.update 0
        (MapUpdate.assign "foo" "zzz")).load 0).index "foo" = "zzz" ∧
    (heap.NewId (MapHeap.mk [[("foo", "abc"), ("bar", "def")]]) "foo" 0).2.value
      ([MapUpdate.assign "foo" "zzz"].foldl (fun h u => h.update 0 u)
        (heap.NewId (MapHeap.mk [[("foo", "abc"), ("bar", "def")]]) "foo" 0).1) =
      meter.NewId "foo" ((MapHeap.mk [[("foo", "abc"), ("bar", "def")]]).load 0) :=
  ⟨⟨by decide, by decide⟩, by decide, by decide,
    (NewId_copies_tags (MapHeap.mk [[("foo", "abc"), ("bar", "def")]]) "foo" 0
      [MapUpdate.assign "foo" "zzz"] _ _ (by decide) (by decide) rfl).2.2.2.2.2.2.2⟩

/-- C11: `WithTags` gives a new identity with the receiver's name whose tags
are the receiver's tags merged with `extra`, an entry of `extra` overriding the
receiver's entry with the same key; the receiver, read from the heap after the
call, has the name and the tags it had before, the map `extra` is as it was,
and the new identity holds a map of its own. -/
theorem WithTags_merges (h : MapHeap) (id : heap.Id) (extra : Nat) (h1 : MapHeap)
    (id2 : heap.Id)
    (hid : id.tags < h.maps.length) (hex : extra < h.maps.length)
    (hw : (h.load id.tags).WellFormed) (hwe : (h.load extra).WellFormed)
    (hres : heap.Id.WithTags h id extra = (h1, id2)) :
    (id2.value h1).Name = (id.value h).Name ∧
    (∀ k : String, (id2.value h1).Tags.lookup k =
      ((h.load extra).lookup k).or ((h.load id.tags).lookup k)) ∧
    (id2.value h1).Tags.WellFormed ∧
    id2.value h1 = (id.value h).WithTags (h.load extra) ∧
    id.value h1 = id.value h ∧
    h1.load extra = h.load extra ∧
    id2.tags ≠ id.tags := by
  have hlen : h.make.1.maps.length = h.maps.length + 1 := by simp [MapHeap.make]
  have hfresh : h.make.2 = h.maps.length := rfl
  have hd : h.make.2 < h.make.1.maps.length := by
    rw [hlen, hfresh]
    exact Nat.lt_succ_self _
  have hempty : h.load h.make.2 = [] := by
    rw [hfresh]
    unfold MapHeap.load
    rw [List.getD_eq_getElem?_getD, List.getElem?_eq_none_iff.2 (le_refl _)]
    rfl
  obtain ⟨c1l, c1q⟩ := MapHeap.copyInto_spec h.make.1 h.make.2 id.tags hd
  have hd2 : h.make.2 < (h.make.1.copyInto h.make.2 id.tags).maps.length := by
    rw [c1l]
    exact hd
  obtain ⟨c2l, c2q⟩ := MapHeap.copyInto_spec (h.make.1.copyInto h.make.2 id.tags) h.make.2
    extra hd2
  have hidne : id.tags ≠ h.make.2 := by
    rw [hfresh]
    exact Nat.ne_of_lt hid
  have hexne : extra ≠ h.make.2 := by
    rw [hfresh]
    exact Nat.ne_of_lt hex
  have l2 : ∀ q, q ≠ h.make.2 →
      ((h.make.1.copyInto h.make.2 id.tags).copyInto h.make.2 extra).load q = h.load q := by
    intro q hq
    rw [c2q, if_neg hq, c1q, if_neg hq, MapHeap.load_make]
  have lnew : ((h.make.1.copyInto h.make.2 id.tags).copyInto h.make.2 extra).load h.make.2 =
      Tags.copyInto (Tags.copyInto [] (h.load id.tags)) (h.load extra) := by
    rw [c2q, if_pos rfl, c1q, if_pos rfl, c1q, if_neg hexne, MapHeap.load_make,
      MapHeap.load_make, MapHeap.load_make, hempty]
  have hwnew : (((h.make.1.copyInto h.make.2 id.tags).copyInto h.make.2 extra).load
      h.make.2).WellFormed := by
    rw [lnew]
    exact Tags.copyInto_wellFormed _ _ (Tags.copyInto_wellFormed _ _ List.nodup_nil)
  obtain ⟨s1, s2, s3, s4⟩ := heap.NewId_spec
    ((h.make.1.copyInto h.make.2 id.tags).copyInto h.make.2 extra) id.name h.make.2 hwnew
  have hunf : heap.Id.WithTags h id extra = heap.NewId
      ((h.make.1.copyInto h.make.2 id.tags).copyInto h.make.2 extra) id.name h.make.2 := rfl
  rw [← hunf, hres] at s1 s2 s3 s4
  simp only at s1 s2 s3 s4
  rw [lnew] at s4
  have hl3 : ((h.make.1.copyInto h.make.2 id.tags).copyInto h.make.2 extra).maps.length =
      h.maps.length + 1 := by
    rw [c2l, c1l, hlen]
  have hval : id2.value h1 = (id.value h).WithTags (h.load extra) := by
    rw [s4]
    rfl
  have hold : ∀ q, q < h.maps.length → h1.load q = h.load q := by
    intro q hq
    rw [s3 q (by rw [hl3]; omega), l2 q (by rw [hfresh]; omega)]
  have htags : (id2.value h1).Tags =
      Tags.copyInto (Tags.copyInto [] (h.load id.tags)) (h.load extra) := by
    rw [s4]
    rfl
  refine ⟨?_, ?_, ?_, hval, ?_, hold extra hex, ?_⟩
  · rw [s4]
    rfl
  · intro k
    rw [htags, Tags.lookup_copyInto _ _ hwe, Tags.copyInto_nil _ hw]
  · rw [htags]
    exact Tags.copyInto_wellFormed _ _ (Tags.copyInto_wellFormed _ _ List.nodup_nil)
  · unfold heap.Id.value
    rw [hold id.tags hid]
  · rw [s1, hl3]
    omega

end meter

namespace meter

theorem WithTags_merges_witness :
    (testWithTagsId.tags < testWithTagsHeap.maps.length ∧ 1 < testWithTagsHeap.maps.length ∧
      (testWithTagsHeap.load testWithTagsId.tags).WellFormed ∧
      (testWithTagsHeap.load 1).WellFormed) ∧
    ((heap.Id.WithTags testWithTagsHeap testWithTagsId 1).2.value
      (heap.Id.WithTags testWithTagsHeap testWithTagsId 1).1).Name = "c" ∧
    ((heap.Id.WithTags testWithTagsHeap testWithTagsId 1).2.value
      (heap.Id.WithTags testWithTagsHeap testWithTagsId 1).1).Tags.Perm
      [("statistic", "foo"), ("k", "v"), ("a", "b")] ∧
    testWithTagsId.value (heap.Id.WithTags testWithTagsHeap testWithTagsId 1).1 =
      testWithTagsId.value testWithTagsHeap ∧
    (heap.Id.WithTags testWithTagsHeap testWithTagsId 1).2.tags ≠ testWithTagsId.tags :=
  have w := WithTags_merges testWithTagsHeap testWithTagsId 1 _ _ (by decide) (by decide)
    (by decide) (by decide) rfl
  ⟨⟨by decide, by decide, by decide, by decide⟩, by decide, by decide, w.2.2.2.2.1,
    w.2.2.2.2.2.2⟩

end meter

/-! ## Slices in the heap -/

theorem take_set_succ (l : List String) (n : Nat) (x : String) (h : n < l.length) :
    (l.set n x).take (n + 1) = l.take n ++ [x] := by
  induction l generalizing n with
  | nil => simp at h
  | cons a as ih =>
    cases n with
    | zero => simp
    | succ k =>
      simp only [List.length_cons, Nat.succ_lt_succ_iff] at h
      simp [List.set, List.take, ih k h]

theorem ArrayHeap.load_push (h : ArrayHeap) (x : List String) (a : Nat) :
    (ArrayHeap.mk (h.arrays ++ [x])).load a = if a = h.arrays.length then x else h.load a := by
  unfold ArrayHeap.load
  simp only [List.getD_eq_getElem?_getD]
  by_cases ha : a < h.arrays.length
  · rw [List.getElem?_append_left ha, if_neg (Nat.ne_of_lt ha)]
  · have ha2 : h.arrays.length ≤ a := Nat.le_of_not_lt ha
    rw [List.getElem?_append_right ha2, List.getElem?_eq_none_iff.2 ha2]
    by_cases hz : a = h.arrays.length
    · subst hz
      simp
    · have : [x].length ≤ a - h.arrays.length := by
        simp only [List.length_singleton]
        omega
      rw [List.getElem?_eq_none_iff.2 this, if_neg hz]

theorem ArrayHeap.load_set (h : ArrayHeap) (r a : Nat) (x : List String)
    (hr : r < h.arrays.length) :
    (ArrayHeap.mk (h.arrays.set r x)).load a = if a = r then x else h.load a := by
  unfold ArrayHeap.load
  simp only [List.getD_eq_getElem?_getD, List.getElem?_set]
  by_cases ha : a = r
  · subst ha
    simp [hr]
  · have ha2 : ¬ r = a := fun e => ha e.symm
    simp [ha, ha2]

theorem ArrayHeap.load_out_of_range (h : ArrayHeap) (a : Nat) (ha : h.arrays.length ≤ a) :
    h.load a = [] := by
  unfold ArrayHeap.load
  rw [List.getD_eq_getElem?_getD, List.getElem?_eq_none_iff.2 ha]
  rfl

namespace writer

theorem heap.Valid_elems_length (h : ArrayHeap) (m : heap.MemoryWriter) (hv : m.Valid h) :
    (m.lines.elems h).length = m.lines.len := by
  obtain ⟨hle, hc | ⟨_, hlen⟩⟩ := hv
  · have : m.lines.len = 0 := by omega
    simp [Slice.elems, this]
  · simp only [Slice.elems, List.length_take, hlen]
    omega

/-- One `Write` on a well-formed writer in memory: the writer stays
well-formed, its lines gain the line written, no array is freed, and an array
other than the writer's own backing array is left as it was. -/
theorem heap.Write_spec (h : ArrayHeap) (m : heap.MemoryWriter) (line : String)
    (h1 : ArrayHeap) (m1 : heap.MemoryWriter)
    (hv : m.Valid h) (hres : heap.MemoryWriter.Write h m line = (h1, m1)) :
    m1.Valid h1 ∧
    m1.lines.elems h1 = m.lines.elems h ++ [line] ∧
    h.arrays.length ≤ h1.arrays.length ∧
    (∀ a, a < h.arrays.length → (m.lines.cap = 0 ∨ m.lines.array ≠ a) →
      h1.load a = h.load a ∧ (m1.lines.cap = 0 ∨ m1.lines.array ≠ a)) := by
  have hel := heap.Valid_elems_length h m hv
  obtain ⟨hle, hcap⟩ := hv
  by_cases hlt : m.lines.len < m.lines.cap
  · have e : heap.MemoryWriter.Write h m line =
        (ArrayHeap.mk (h.arrays.set m.lines.array ((h.load m.lines.array).set m.lines.len line)),
          heap.MemoryWriter.mk (Slice.mk m.lines.array (m.lines.len + 1) m.lines.cap)) := by
      unfold heap.MemoryWriter.Write ArrayHeap.append
      rw [if_pos hlt]
    rw [e] at hres
    obtain ⟨rfl, rfl⟩ := Prod.mk.inj hres
    have hpos : m.lines.cap ≠ 0 := by omega
    obtain ⟨harr, hlen⟩ := hcap.resolve_left hpos
    have hload : ∀ a, (ArrayHeap.mk (h.arrays.set m.lines.array
        ((h.load m.lines.array).set m.lines.len line))).load a =
        if a = m.lines.array then (h.load m.lines.array).set m.lines.len line else h.load a :=
      fun a => ArrayHeap.load_set h m.lines.array a _ harr
    refine ⟨⟨?_, Or.inr ⟨?_, ?_⟩⟩, ?_, ?_, ?_⟩
    · show m.lines.len + 1 ≤ m.lines.cap
      omega
    · show m.lines.array < (h.arrays.set m.lines.array _).length
      rw [List.length_set]
      exact harr
    · show ((ArrayHeap.mk _).load m.lines.array).length = m.lines.cap
      rw [hload, if_pos rfl, List.length_set, hlen]
    · show ((ArrayHeap.mk _).load m.lines.array).take (m.lines.len + 1) = _
      rw [hload, if_pos rfl, take_set_succ _ _ _ (by rw [hlen]; exact hlt)]
      rfl
    · show h.arrays.length ≤ (h.arrays.set m.lines.array _).length
      rw [List.length_set]
    · intro a _ hne
      have hne2 : m.lines.array ≠ a := hne.resolve_left hpos
      refine ⟨?_, Or.inr hne2⟩
      rw [hload, if_neg (fun e => hne2 e.symm)]
  · have e : heap.MemoryWriter.Write h m line =
        (ArrayHeap.mk (h.arrays ++ [m.lines.elems h ++
            line :: List.replicate (2 * m.lines.cap + 1 - (m.lines.len + 1)) ""]),
          heap.MemoryWriter.mk
            (Slice.mk h.arrays.length (m.lines.len + 1) (2 * m.lines.cap + 1))) := by
      unfold heap.MemoryWriter.Write ArrayHeap.append
      rw [if_neg hlt]
    rw [e] at hres
    obtain ⟨rfl, rfl⟩ := Prod.mk.inj hres
    have hload := ArrayHeap.load_push h
      (m.lines.elems h ++ line :: List.replicate (2 * m.lines.cap + 1 - (m.lines.len + 1)) "")
    refine ⟨⟨?_, Or.inr ⟨?_, ?_⟩⟩, ?_, ?_, ?_⟩
    · show m.lines.len + 1 ≤ 2 * m.lines.cap + 1
      omega
    · show h.arrays.length < (h.arrays ++ [_]).length
      simp
    · show ((ArrayHeap.mk _).load h.arrays.length).length = 2 * m.lines.cap + 1
      rw [hload, if_pos rfl]
      simp only [List.length_append, List.length_cons, List.length_replicate, hel]
      omega
    · show ((ArrayHeap.mk _).load h.arrays.length).take (m.lines.len + 1) = _
      rw [hload, if_pos rfl]
      have e2 : m.lines.elems h ++
          line :: List.replicate (2 * m.lines.cap + 1 - (m.lines.len + 1)) "" =
          (m.lines.elems h ++ [line]) ++
            List.replicate (2 * m.lines.cap + 1 - (m.lines.len + 1)) "" := by simp
      have e3 : m.lines.len + 1 = (m.lines.elems h ++ [line]).length := by simp [hel]
      rw [e2, e3, List.take_left]
    · show h.arrays.length ≤ (h.arrays ++ [_]).length
      simp
    · intro a ha _
      refine ⟨?_, Or.inr (Nat.ne_of_gt ha)⟩
      rw [hload, if_neg (Nat.ne_of_lt ha)]

end writer

namespace writer

theorem heap.Lines_spec (h : ArrayHeap) (m : heap.MemoryWriter) (h1 : ArrayHeap) (snap : Slice)
    (hv : m.Valid h) (hres : heap.MemoryWriter.Lines h m = (h1, snap)) :
    snap.elems h1 = m.lines.elems h ∧
    m.lines.elems h1 = m.lines.elems h ∧
    m.Valid h1 ∧
    snap.array < h1.arrays.length ∧
    (m.lines.cap = 0 ∨ m.lines.array ≠ snap.array) := by
  have e : heap.MemoryWriter.Lines h m =
      (ArrayHeap.mk (h.arrays ++ [m.lines.elems h]),
        Slice.mk h.arrays.length m.lines.len m.lines.len) := rfl
  rw [e] at hres
  obtain ⟨rfl, rfl⟩ := Prod.mk.inj hres
  have hload := ArrayHeap.load_push h (m.lines.elems h)
  have hsame : (ArrayHeap.mk (h.arrays ++ [m.lines.elems h])).load m.lines.array =
      h.load m.lines.array ∨ m.lines.elems h = [] ∧ m.lines.array = h.arrays.length := by
    rw [hload]
    by_cases hz : m.lines.array = h.arrays.length
    · right
      refine ⟨?_, hz⟩
      unfold Slice.elems
      rw [ArrayHeap.load_out_of_range h _ (by omega)]
      exact List.take_nil
    · left
      rw [if_neg hz]
  obtain ⟨hle, hcap⟩ := hv
  refine ⟨?_, ?_, ⟨hle, ?_⟩, ?_, ?_⟩
  · show ((ArrayHeap.mk _).load h.arrays.length).take m.lines.len = _
    rw [hload, if_pos rfl]
    unfold Slice.elems
    rw [List.take_take, Nat.min_self]
  · rcases hsame with hs | ⟨hnil, harr⟩
    · show ((ArrayHeap.mk (h.arrays ++ [m.lines.elems h])).load m.lines.array).take
        m.lines.len = (h.load m.lines.array).take m.lines.len
      rw [hs]
    · show ((ArrayHeap.mk _).load m.lines.array).take m.lines.len = _
      rw [hload, if_pos harr, hnil]
      simp
  · rcases hcap with hc | ⟨harr, hlen⟩
    · exact Or.inl hc
    · refine Or.inr ⟨?_, ?_⟩
      · show m.lines.array < (h.arrays ++ [_]).length
        rw [List.length_append]
        omega
      · rw [hload, if_neg (Nat.ne_of_lt harr)]
        exact hlen
  · show h.arrays.length < (h.arrays ++ [_]).length
    simp
  · rcases hcap with hc | ⟨harr, _⟩
    · exact Or.inl hc
    · exact Or.inr (Nat.ne_of_lt harr)

theorem heap.changes_spec (cs : List heap.Change) (s : ArrayHeap × heap.MemoryWriter) (a : Nat)
    (hv : s.2.Valid s.1) (ha : a < s.1.arrays.length)
    (hne : s.2.lines.cap = 0 ∨ s.2.lines.array ≠ a) :
    (cs.foldl heap.MemoryWriter.apply s).2.Valid (cs.foldl heap.MemoryWriter.apply s).1 ∧
    (cs.foldl heap.MemoryWriter.apply s).1.load a = s.1.load a ∧
    (cs.foldl heap.MemoryWriter.apply s).2.value (cs.foldl heap.MemoryWriter.apply s).1 =
      cs.foldl heap.Change.onValue (s.2.value s.1) := by
  induction cs generalizing s with
  | nil => exact ⟨hv, rfl, rfl⟩
  | cons c cs ih =>
    rw [List.foldl_cons, List.foldl_cons]
    cases c with
    | Write line =>
      obtain ⟨w1, w2, w3, w4⟩ := heap.Write_spec s.1 s.2 line
        (heap.MemoryWriter.Write s.1 s.2 line).1 (heap.MemoryWriter.Write s.1 s.2 line).2 hv rfl
      obtain ⟨f1, f2⟩ := w4 a ha hne
      obtain ⟨i1, i2, i3⟩ := ih (heap.MemoryWriter.Write s.1 s.2 line) w1
        (Nat.lt_of_lt_of_le ha w3) f2
      have hval : (heap.MemoryWriter.Write s.1 s.2 line).2.value
          (heap.MemoryWriter.Write s.1 s.2 line).1 =
          heap.Change.onValue (s.2.value s.1) (heap.Change.Write line) := by
        show writer.MemoryWriter.mk (Slice.elems _ _) =
          writer.MemoryWriter.mk (Slice.elems _ _ ++ [line])
        rw [w2]
      rw [hval] at i3
      exact ⟨i1, i2.trans f1, i3⟩
    | Reset =>
      have hv2 : (heap.MemoryWriter.Reset s.1 s.2).2.Valid (heap.MemoryWriter.Reset s.1 s.2).1 :=
        ⟨Nat.le_refl _, Or.inl rfl⟩
      obtain ⟨i1, i2, i3⟩ := ih (heap.MemoryWriter.Reset s.1 s.2) hv2 ha (Or.inl rfl)
      exact ⟨i1, i2, i3⟩

end writer

namespace writer

/-- C17: reading and closing do not change a `MemoryWriter`.  For a well-formed
writer in memory, `Lines()` returns the stored lines and the writer reads the
same after the call; `Close()` returns no error, in every state and so at every
call, and leaves the heap and the writer as they are; and the slice `Lines()`
returned keeps its elements through any later `Write` and `Reset` calls on the
writer, while the writer itself follows those calls. -/
theorem MemoryWriter_reads_leave_lines (h : ArrayHeap) (m : heap.MemoryWriter)
    (cs : List heap.Change) (h1 : ArrayHeap) (snap : Slice)
    (hv : m.Valid h) (hres : heap.MemoryWriter.Lines h m = (h1, snap)) :
    snap.elems h1 = (m.value h).Lines ∧
    m.value h1 = m.value h ∧
    (∀ (h2 : ArrayHeap) (m2 : heap.MemoryWriter),
      heap.MemoryWriter.Close h2 m2 = (h2, m2, none)) ∧
    (∀ w : writer.MemoryWriter, w.Close = (w, none) ∧ w.Close.1.Lines = w.Lines) ∧
    snap.elems (cs.foldl heap.MemoryWriter.apply (h1, m)).1 = snap.elems h1 ∧
    (cs.foldl heap.MemoryWriter.apply (h1, m)).2.value
      (cs.foldl heap.MemoryWriter.apply (h1, m)).1 =
      cs.foldl heap.Change.onValue (m.value h) := by
  obtain ⟨l1, l2, l3, l4, l5⟩ := heap.Lines_spec h m h1 snap hv hres
  obtain ⟨c1, c2, c3⟩ := heap.changes_spec cs (h1, m) snap.array l3 l4 l5
  have hm : m.value h1 = m.value h := by
    unfold heap.MemoryWriter.value
    rw [l2]
  refine ⟨l1, hm, fun _ _ => rfl, fun _ => ⟨rfl, rfl⟩, ?_, ?_⟩
  · unfold Slice.elems
    rw [c2]
  · rw [c3, hm]

theorem MemoryWriter_reads_leave_lines_witness :
    heap.MemoryWriter.Valid (ArrayHeap.mk [["a", "b", ""]])
      (heap.MemoryWriter.mk (Slice.mk 0 2 3)) ∧
    (Slice.mk 1 2 2).elems (ArrayHeap.mk [["a", "b", ""], ["a", "b"]]) = ["a", "b"] ∧
    (Slice.mk 1 2 2).elems
      ([heap.Change.Write "c", heap.Change.Reset, heap.Change.Write "d"].foldl
        heap.MemoryWriter.apply
        (ArrayHeap.mk [["a", "b", ""], ["a", "b"]], heap.MemoryWriter.mk (Slice.mk 0 2 3))).1 =
      (Slice.mk 1 2 2).elems (ArrayHeap.mk [["a", "b", ""], ["a", "b"]]) ∧
    (heap.MemoryWriter.apply
        (ArrayHeap.mk [["a", "b", ""], ["a", "b"]], heap.MemoryWriter.mk (Slice.mk 0 2 3))
        (heap.Change.Write "c")).1 = ArrayHeap.mk [["a", "b", "c"], ["a", "b"]] :=
  ⟨by decide, by decide,
    (MemoryWriter_reads_leave_lines (ArrayHeap.mk [["a", "b", ""]])
      (heap.MemoryWriter.mk (Slice.mk 0 2 3))
      [heap.Change.Write "c", heap.Change.Reset, heap.Change.Write "d"]
      (ArrayHeap.mk [["a", "b", ""], ["a", "b"]]) (Slice.mk 1 2 2) (by decide) (by decide)).2.2.2.2.1,
    by decide⟩

end writer
end Spectator
